import Mathlib

/-!
Verification of the Weavewiki client against its specification.

This file gives a shallow embedding of the parts of the Weavewiki source
that carry behavioral contracts:

* the per-topic fetch orchestration in the main UI controller
  (the effect body `fetchContentAndArt`, the translation handler
  `handleTranslate`, the navigation operations `navigateToTopic` and
  `handleHistoryNavigation`, and the seed parser `getInitialHistory`);
* the journey serialization in the share control (`handleShare`);
* the streaming service function `streamDefinition`.

Asynchronous behavior is embedded by explicit state passing: the effect
body becomes a function from the outcomes of its asynchronous operations
(the four settled auxiliary calls, the delivered stream fragments, the
difficulty-rating result) and a cooperative-cancellation point to the
final view state plus a timestamped trace of state mutations.  The
closure flag `isCancelled` is monotone (set once by the effect cleanup
when a newer topic transition begins), so a cancellation is represented
by the index of the first suspension-point check that observes it.

JavaScript built-ins used by the source (`encodeURIComponent`,
`decodeURIComponent`, `String.prototype.split`, `Array.prototype.join`,
`trim`, `toLowerCase`, `Array.prototype.slice`) are modelled over
`List Char` following their ECMAScript definitions; `toLowerCase` is
modelled on its ASCII fragment, which is all the repository exercises.
-/

/-- Payload of a successful ascii-art call (`AsciiArtData` in the service). -/
structure AsciiArtData where
  art : String
deriving DecidableEq

/-- Payload of a successful animated-art call (`AnimatedAsciiArtData`). -/
structure AnimatedAsciiArtData where
  frames : List String
deriving DecidableEq

/--
The View-State of the orchestrator: the React state fields of the `App`
component that the per-topic effect, the translation handler and the
difficulty callback mutate.  `componentErrors` is the
`Record<string, string | null>` error map, modelled as an association
list where the most recent binding for a key shadows older ones (only
key lookup is observable).  `historicalFact` is `string | null` in the
source, hence `Option String` directly.
-/
structure ViewState where
  content : String
  translatedContent : Option String
  currentLanguage : String
  isLoading : Bool
  error : Option String
  componentErrors : List (String × String)
  asciiArt : Option AsciiArtData
  relatedTopics : List String
  difficulty : Option String
  historicalFact : Option String
  animatedArt : Option AnimatedAsciiArtData
  isFading : Bool
deriving DecidableEq

/-- Spread-update of the component-error map: `\x7b ...prev, key: msg \x7d`. -/
def ceSet (m : List (String × String)) (key msg : String) : List (String × String) :=
  (key, msg) :: m

/-- Observable lookup in the component-error map. -/
def ceLookup : List (String × String) → String → Option String
  | [], _ => none
  | (k, v) :: rest, key => if k = key then some v else ceLookup rest key

/-- List-level string concatenation used to state accumulation facts. -/
def strJoin : List String → String
  | [] => ""
  | s :: rest => s ++ strJoin rest

/-! ## Models of the JavaScript built-ins used by the source -/

/-- Whitespace recognized by `String.prototype.trim`. -/
def jsIsSpace (c : Char) : Bool :=
  c == ' ' || c == '\t' || c == '\n' || c == '\r' || c == '\x0b' || c == '\x0c'

/-- Model of `String.prototype.trim`. -/
def jsTrim (s : String) : String :=
  ⟨((s.data.dropWhile jsIsSpace).reverse.dropWhile jsIsSpace).reverse⟩

/-- Model of `String.prototype.toLowerCase` on its ASCII fragment. -/
def jsLowerChar (c : Char) : Char :=
  if c.toNat < 91 ∧ 64 < c.toNat then Char.ofNat (c.toNat + 32) else c

/-- Model of `String.prototype.toLowerCase` (ASCII fragment). -/
def jsToLower (s : String) : String :=
  ⟨s.data.map jsLowerChar⟩

/-- Characters `encodeURIComponent` leaves unescaped:
letters, digits, and `- _ . ! ~ * ( )` and the apostrophe. -/
def isUnreservedChar (c : Char) : Bool :=
  (65 ≤ c.toNat && c.toNat ≤ 90) || (97 ≤ c.toNat && c.toNat ≤ 122) ||
  (48 ≤ c.toNat && c.toNat ≤ 57) ||
  c == '-' || c == '_' || c == '.' || c == '!' || c == '~' || c == '*' ||
  c == Char.ofNat 39 || c == '(' || c == ')'

/-- Uppercase hexadecimal digit, as produced by `encodeURIComponent`. -/
def hexDigitChar (n : Nat) : Char :=
  if n < 10 then Char.ofNat (48 + n) else Char.ofNat (55 + n)

/-- Value of a hexadecimal digit character (both cases accepted). -/
def hexDigitVal (c : Char) : Option Nat :=
  if 48 ≤ c.toNat ∧ c.toNat ≤ 57 then some (c.toNat - 48)
  else if 65 ≤ c.toNat ∧ c.toNat ≤ 70 then some (c.toNat - 55)
  else if 97 ≤ c.toNat ∧ c.toNat ≤ 102 then some (c.toNat - 87)
  else none

/-- UTF-8 encoding of a Unicode scalar value. -/
def utf8EncodeChar (n : Nat) : List Nat :=
  if n < 128 then [n]
  else if n < 2048 then [192 + n / 64, 128 + n % 64]
  else if n < 65536 then [224 + n / 4096, 128 + n / 64 % 64, 128 + n % 64]
  else [240 + n / 262144, 128 + n / 4096 % 64, 128 + n / 64 % 64, 128 + n % 64]

/-- Percent-escape of one byte: `%XY` with uppercase hexadecimal digits. -/
def pctByte (b : Nat) : List Char :=
  ['%', hexDigitChar (b / 16), hexDigitChar (b % 16)]

/-- Encoding of a single character by `encodeURIComponent`. -/
def encChar (c : Char) : List Char :=
  if isUnreservedChar c then [c] else (utf8EncodeChar c.toNat).flatMap pctByte

/-- Model of `encodeURIComponent`. -/
def encodeURIComponent (s : String) : String :=
  ⟨s.data.flatMap encChar⟩

/-- First phase of `decodeURIComponent`: replace each `%XY` escape by the
byte it denotes, keep other characters literal; `none` models the
`URIError` thrown on a malformed escape. -/
def pctTokens : List Char → Option (List (Char ⊕ Nat))
  | [] => some []
  | c :: rest =>
    if c = '%' then
      match rest with
      | h1 :: h2 :: rest2 =>
        match hexDigitVal h1, hexDigitVal h2, pctTokens rest2 with
        | some d1, some d2, some ts => some (Sum.inr (16 * d1 + d2) :: ts)
        | _, _, _ => none
      | _ => none
    else
      match pctTokens rest with
      | some ts => some (Sum.inl c :: ts)
      | none => none

/-- Reading of one UTF-8 scalar from an escaped-byte run: given the lead
byte and the remaining tokens, return the scalar value and how many
further tokens the sequence consumes, or `none` on a malformed sequence
(truncated, stray continuation byte, overlong form, or surrogate), as
the built-in rejects them. -/
def utf8First (b : Nat) (ts : List (Char ⊕ Nat)) : Option (Nat × Nat) :=
  if b < 128 then some (b, 0)
  else if b < 194 then none
  else if b < 224 then
    match ts with
    | Sum.inr b2 :: _ =>
      if 128 ≤ b2 ∧ b2 < 192 then some ((b - 192) * 64 + (b2 - 128), 1) else none
    | _ => none
  else if b < 240 then
    match ts with
    | Sum.inr b2 :: Sum.inr b3 :: _ =>
      if (128 ≤ b2 ∧ b2 < 192) ∧ (128 ≤ b3 ∧ b3 < 192) ∧
         (b = 224 → 160 ≤ b2) ∧ (b = 237 → b2 < 160) then
        some ((b - 224) * 4096 + (b2 - 128) * 64 + (b3 - 128), 2)
      else none
    | _ => none
  else if b < 245 then
    match ts with
    | Sum.inr b2 :: Sum.inr b3 :: Sum.inr b4 :: _ =>
      if (128 ≤ b2 ∧ b2 < 192) ∧ (128 ≤ b3 ∧ b3 < 192) ∧ (128 ≤ b4 ∧ b4 < 192) ∧
         (b = 240 → 144 ≤ b2) ∧ (b = 244 → b2 < 144) then
        some ((b - 240) * 262144 + (b2 - 128) * 4096 + (b3 - 128) * 64 + (b4 - 128), 3)
      else none
    | _ => none
  else none

/-- Second phase of `decodeURIComponent`, fuelled worker: decode maximal
runs of escaped bytes as strict UTF-8; literal characters pass through.
Each step consumes at least one token, so fuel equal to the list length
always suffices; the fuel argument only makes the recursion structural. -/
def utf8DecodeAux : Nat → List (Char ⊕ Nat) → Option (List Char)
  | _, [] => some []
  | 0, _ :: _ => none
  | fuel + 1, Sum.inl c :: ts => (utf8DecodeAux fuel ts).map (fun cs => c :: cs)
  | fuel + 1, Sum.inr b :: ts =>
    match utf8First b ts with
    | some (n, k) => (utf8DecodeAux fuel (ts.drop k)).map (fun cs => Char.ofNat n :: cs)
    | none => none

/-- Second phase of `decodeURIComponent`: decode maximal runs of escaped
bytes as strict UTF-8; literal characters pass through. -/
def utf8DecodeTokens (l : List (Char ⊕ Nat)) : Option (List Char) :=
  utf8DecodeAux l.length l

/-- Model of `decodeURIComponent`; `none` models a thrown `URIError`. -/
def decodeURIComponent (s : String) : Option String :=
  match pctTokens s.data with
  | none => none
  | some ts =>
    match utf8DecodeTokens ts with
    | some cs => some ⟨cs⟩
    | none => none

/-- Plus-to-space replacement applied by `URLSearchParams` to a form
value before percent-decoding it. -/
def plusToSpace (c : Char) : Char :=
  if c = '+' then ' ' else c

/-- Attempted read of one percent-escape after a `%`: two hexadecimal
digits give the denoted byte and the rest of the input. -/
def urlEscVal : List Char → Option (Nat × List Char)
  | h1 :: h2 :: rest2 =>
    match hexDigitVal h1, hexDigitVal h2 with
    | some d1, some d2 => some (16 * d1 + d2, rest2)
    | _, _ => none
  | _ => none

/-- Lenient percent-tokenizer used by `URLSearchParams` value decoding,
fuelled worker: a `%XY` escape with two hexadecimal digits becomes the
byte it denotes; a `%` not starting a valid escape passes through
literally (no error), as do all other characters.  One fuel unit is
spent per produced token and every token consumes at least one input
character, so fuel equal to the input length always suffices; the fuel
only makes the recursion structural. -/
def urlPctAux : Nat → List Char → List (Char ⊕ Nat)
  | _, [] => []
  | 0, _ :: _ => []
  | fuel + 1, c :: rest =>
    if c = '%' then
      match urlEscVal rest with
      | some (b, rest2) => Sum.inr b :: urlPctAux fuel rest2
      | none => Sum.inl c :: urlPctAux fuel rest
    else Sum.inl c :: urlPctAux fuel rest

/-- Lenient percent-tokenizer used by `URLSearchParams` value
decoding. -/
def urlPctTokens (l : List Char) : List (Char ⊕ Nat) :=
  urlPctAux l.length l

/-- Replacement-mode UTF-8 decoding of a token run, fuelled worker:
literal characters pass through, valid escaped-byte sequences decode to
their scalar, and a byte starting no valid sequence yields U+FFFD (the
replacement character) and is skipped, as `URLSearchParams` decoding
does.  One fuel unit is spent per produced character, so fuel equal to
the token-list length always suffices; the fuel only makes the
recursion structural.  No theorem exercises the replacement branch:
the encoder output this development feeds it is always valid UTF-8. -/
def utf8ReplaceAux : Nat → List (Char ⊕ Nat) → List Char
  | _, [] => []
  | 0, _ :: _ => []
  | fuel + 1, Sum.inl c :: ts => c :: utf8ReplaceAux fuel ts
  | fuel + 1, Sum.inr b :: ts =>
    match utf8First b ts with
    | some (n, k) => Char.ofNat n :: utf8ReplaceAux fuel (ts.drop k)
    | none => Char.ofNat 65533 :: utf8ReplaceAux fuel ts

/-- The application/x-www-form-urlencoded decoding `URLSearchParams.get`
applies to a query-parameter value (part of reading the `journey`
parameter from the navigation context): replace `+` by space, decode
percent-escapes leniently, and UTF-8-decode the result with
replacement. -/
def urlFormDecode (s : String) : String :=
  let toks := urlPctTokens (s.data.map plusToSpace)
  ⟨utf8ReplaceAux toks.length toks⟩

/-- Model of `String.prototype.split` with separator `','`, at the
character-list level: `""` splits to `[""]`, `","` to `["", ""]`. -/
def splitCharComma : List Char → List (List Char)
  | [] => [[]]
  | c :: rest =>
    if c = ',' then [] :: splitCharComma rest
    else
      match splitCharComma rest with
      | [] => [[c]]
      | g :: gs => (c :: g) :: gs

/-- Model of `Array.prototype.join` with separator `','`, at the
character-list level. -/
def joinCharComma : List (List Char) → List Char
  | [] => []
  | [x] => x
  | x :: xs => x ++ ',' :: joinCharComma xs

/-- String-level comma split. -/
def jsSplitComma (s : String) : List String :=
  (splitCharComma s.data).map (fun l => ⟨l⟩)

/-- String-level comma join. -/
def jsJoinComma (parts : List String) : String :=
  ⟨joinCharComma (parts.map String.data)⟩

/-- Model of `Array.prototype.slice(0, e)` with a possibly negative end
index and the history index carried as a JavaScript number. -/
def jsSliceTo (l : List String) (e : Int) : List String :=
  if 0 ≤ e then l.take e.toNat else l.take (((l.length : Int) + e).toNat)

/-! ## Journey state: seeding, navigation, serialization -/

/--
`getInitialHistory` from the app controller: read the `journey` query
parameter (here passed as the value `URLSearchParams.get` returns, or
`none` when absent), split it on commas, percent-decode each entry and
drop empty entries; on a decoding error, or when the parameter is absent
or empty, fall back to the default seed topic.
-/
def getInitialHistory (journeyParam : Option String) : List String :=
  match journeyParam with
  | none => ["Metacognition"]
  | some journey =>
    if journey = "" then ["Metacognition"]
    else
      match (jsSplitComma journey).mapM decodeURIComponent with
      | some ts => ts.filter (fun t => t != "")
      | none => ["Metacognition"]

/-- Initial journey and history index of the `App` component:
`historyIndex` starts at `initialHistory.length - 1` (a JavaScript
number, hence `Int`: it is `-1` when the seed list is empty). -/
def appInit (journeyParam : Option String) : List String × Int :=
  let h := getInitialHistory journeyParam
  (h, (h.length : Int) - 1)

/-- The current topic: `history[historyIndex] ?? 'Metacognition'`. -/
def currentTopicOf (history : List String) (historyIndex : Int) : String :=
  if 0 ≤ historyIndex then history.getD historyIndex.toNat "Metacognition"
  else "Metacognition"

/--
`navigateToTopic` from the app controller, restricted to the journey and
index it owns (the function also resets the word-cloud toggle, a
presentation field no claim mentions): a no-op when the trimmed input is
empty or case-insensitively equal to the current topic; otherwise
truncate the journey to `slice(0, historyIndex + 1)`, append the trimmed
topic and move the index to the new last position.
-/
def navigateToTopic (history : List String) (historyIndex : Int) (newTopic : String) :
    List String × Int :=
  let trimmedTopic := jsTrim newTopic
  if trimmedTopic = "" ∨ jsToLower trimmedTopic = jsToLower (currentTopicOf history historyIndex)
  then (history, historyIndex)
  else
    let newHistory := jsSliceTo history (historyIndex + 1) ++ [trimmedTopic]
    (newHistory, (newHistory.length : Int) - 1)

/-- `handleHistoryNavigation`: set the history index directly (the
journey itself is not mutated). -/
def handleHistoryNavigation (history : List String) (index : Int) : List String × Int :=
  (history, index)

/-- The journey serialization produced by the share control:
`history.map(encodeURIComponent).join(',')`. -/
def shareParam (history : List String) : String :=
  jsJoinComma (history.map encodeURIComponent)

/-! ## The per-topic fetch orchestration -/

/-- Settled outcomes of the four auxiliary calls (`Promise.allSettled`
payloads): a fulfilled value or the rejection's error message. -/
structure AuxOutcomes where
  ascii : Except String AsciiArtData
  related : Except String (List String)
  fact : Except String (Option String)
  animated : Except String AnimatedAsciiArtData

/-- Observable behavior of the primary-stream generator toward its
consumer: the fragments it yields in order, then either completion or a
raised error message. -/
structure StreamRun where
  chunks : List String
  failure : Option String

/-- One View-State mutation (one React state-setter call). -/
inductive Mut where
  | isFading (b : Bool)
  | isLoading (b : Bool)
  | error (e : Option String)
  | content (c : String)
  | asciiArt (a : Option AsciiArtData)
  | relatedTopics (l : List String)
  | difficulty (d : Option String)
  | historicalFact (f : Option String)
  | animatedArt (a : Option AnimatedAsciiArtData)
  | translatedContent (t : Option String)
  | currentLanguage (l : String)
  | componentError (k v : String)
  | componentErrorsReset
deriving DecidableEq

/-- Effect of one mutation on the View-State. -/
def applyMut (s : ViewState) : Mut → ViewState
  | Mut.isFading b => { s with isFading := b }
  | Mut.isLoading b => { s with isLoading := b }
  | Mut.error e => { s with error := e }
  | Mut.content c => { s with content := c }
  | Mut.asciiArt a => { s with asciiArt := a }
  | Mut.relatedTopics l => { s with relatedTopics := l }
  | Mut.difficulty d => { s with difficulty := d }
  | Mut.historicalFact f => { s with historicalFact := f }
  | Mut.animatedArt a => { s with animatedArt := a }
  | Mut.translatedContent t => { s with translatedContent := t }
  | Mut.currentLanguage l => { s with currentLanguage := l }
  | Mut.componentError k v => { s with componentErrors := ceSet s.componentErrors k v }
  | Mut.componentErrorsReset => { s with componentErrors := [] }

/-- Running state of an orchestrator run: current View-State plus the
timestamped trace of mutations performed so far.  Timestamps number the
suspension-point checks of the effect body in chronological order:
`0` the synchronous resets, `1` the check after the transition delay,
`2` the check after the all-settled join, `3 + i` the check after
fragment `i` arrives, `3 + n` the synchronous block after the stream
ends (post-loop check, catch, finally), `4 + n` the difficulty-rating
continuation. -/
structure RunAcc where
  st : ViewState
  evs : List (Nat × Mut)

/-- Perform one mutation, recording it at time `t`. -/
def emit (r : RunAcc) (t : Nat) (m : Mut) : RunAcc :=
  ⟨applyMut r.st m, r.evs ++ [(t, m)]⟩

/-- Whether the closure flag `isCancelled` reads true at check `t`:
`cancel = some k` means the effect cleanup for a newer topic transition
runs between checks `k - 1` and `k`; `none` means the run stays fresh. -/
def cancelledAt (cancel : Option Nat) (t : Nat) : Bool :=
  match cancel with
  | none => false
  | some k => decide (k ≤ t)

/-- The synchronous View-State resets at the top of the effect body, in
source order. -/
def resetBlock (init : ViewState) : RunAcc :=
  let r : RunAcc := ⟨init, []⟩
  let r := emit r 0 (Mut.isFading true)
  let r := emit r 0 (Mut.isLoading true)
  let r := emit r 0 (Mut.error none)
  let r := emit r 0 (Mut.content "")
  let r := emit r 0 (Mut.asciiArt none)
  let r := emit r 0 (Mut.relatedTopics [])
  let r := emit r 0 (Mut.difficulty none)
  let r := emit r 0 (Mut.historicalFact none)
  let r := emit r 0 (Mut.animatedArt none)
  let r := emit r 0 (Mut.translatedContent none)
  let r := emit r 0 (Mut.currentLanguage "en")
  let r := emit r 0 Mut.componentErrorsReset
  r

/-- Processing of the four settled auxiliary results, in source order:
a fulfilled value goes to its own View-State field, a rejection's
message goes into the error map under the feature's key. -/
def applyAuxBlock (r : RunAcc) (aux : AuxOutcomes) : RunAcc :=
  let r := match aux.ascii with
    | Except.ok v => emit r 2 (Mut.asciiArt (some v))
    | Except.error m => emit r 2 (Mut.componentError "asciiArt" m)
  let r := match aux.related with
    | Except.ok v => emit r 2 (Mut.relatedTopics v)
    | Except.error m => emit r 2 (Mut.componentError "relatedTopics" m)
  let r := match aux.fact with
    | Except.ok v => emit r 2 (Mut.historicalFact v)
    | Except.error m => emit r 2 (Mut.componentError "historicalFact" m)
  let r := match aux.animated with
    | Except.ok v => emit r 2 (Mut.animatedArt (some v))
    | Except.error m => emit r 2 (Mut.componentError "animatedArt" m)
  r

/-- Result of the `for await` consumption loop: the accumulated buffer,
whether the loop broke out on a stale check, and the updated run. -/
structure LoopOut where
  acc : String
  broke : Bool
  r : RunAcc

/-- The stream-consumption loop: each arriving fragment is appended to
the accumulating buffer and the buffer republished, unless the staleness
check after its arrival breaks out of the loop. -/
def streamLoop (cancel : Option Nat) : List String → Nat → String → RunAcc → LoopOut
  | [], _, acc, r => ⟨acc, false, r⟩
  | chunk :: rest, i, acc, r =>
    if cancelledAt cancel (3 + i) then ⟨acc, true, r⟩
    else streamLoop cancel rest (i + 1) (acc ++ chunk) (emit r (3 + i) (Mut.content (acc ++ chunk)))

/-- Outcome of one run of the effect body: final View-State, mutation
trace, and the text the difficulty-rating call was issued against
(`none` when no such call was made). -/
structure RunOut where
  state : ViewState
  events : List (Nat × Mut)
  diffCall : Option String

/--
The effect body `fetchContentAndArt`, as a function of the outcomes of
its asynchronous operations and the cancellation point.  Control flow
mirrors the source: resets; abortable transition delay; all-settled
join of the four auxiliary calls; stream consumption; on stream failure
discard the buffer and publish the error; otherwise fire the best-effort
difficulty call when the buffer is non-empty; `finally` clears the
loading flag when still fresh.  The difficulty continuation resolves
after the `finally` block, hence its later timestamp.
-/
def fetchRun (init : ViewState) (aux : AuxOutcomes) (stream : StreamRun)
    (diff : Except String String) (cancel : Option Nat) : RunOut :=
  let r := resetBlock init
  if cancelledAt cancel 1 then ⟨r.st, r.evs, none⟩
  else
    let r := emit r 1 (Mut.isFading false)
    if cancelledAt cancel 2 then ⟨r.st, r.evs, none⟩
    else
      let r := applyAuxBlock r aux
      let lo := streamLoop cancel stream.chunks 0 "" r
      let n := stream.chunks.length
      if lo.broke then ⟨lo.r.st, lo.r.evs, none⟩
      else
        match stream.failure with
        | some m =>
          let r := if cancelledAt cancel (3 + n) then lo.r
            else emit (emit lo.r (3 + n) (Mut.error (some m))) (3 + n) (Mut.content "")
          let r := if cancelledAt cancel (3 + n) then r
            else emit r (3 + n) (Mut.isLoading false)
          ⟨r.st, r.evs, none⟩
        | none =>
          let r := if cancelledAt cancel (3 + n) then lo.r
            else emit lo.r (3 + n) (Mut.isLoading false)
          if cancelledAt cancel (3 + n) then ⟨r.st, r.evs, none⟩
          else if lo.acc = "" then ⟨r.st, r.evs, none⟩
          else
            match diff with
            | Except.ok d =>
              if cancelledAt cancel (4 + n) then ⟨r.st, r.evs, some lo.acc⟩
              else
                let r := emit r (4 + n) (Mut.difficulty (some d))
                ⟨r.st, r.evs, some lo.acc⟩
            | Except.error _ => ⟨r.st, r.evs, some lo.acc⟩

/-- The `setContent` calls of a run, in order. -/
def contentUpdates (out : RunOut) : List String :=
  out.events.filterMap (fun p =>
    match p.2 with
    | Mut.content c => some c
    | _ => none)

/-! ## Translation handler and streaming service -/

/--
Synchronous part of `handleTranslate`: rejected outright (a complete
no-op) when there is no primary text yet or a primary fetch is in
progress; otherwise the current language is set, and for the base
language code the stored translation overlay is cleared with no network
call.  The returned flag records whether a `translateText` network call
was issued (with the current primary text).
-/
def handleTranslate (s : ViewState) (language : String) : ViewState × Bool :=
  if s.content = "" ∨ s.isLoading = true then (s, false)
  else
    let s := { s with currentLanguage := language }
    if language = "en" then ({ s with translatedContent := none }, false)
    else (s, true)

/-- Continuation of `handleTranslate` once the `translateText` promise
settles, applied to whatever state is current at that moment (the source
performs no staleness check here): a success stores the translation
overlay, a failure records the fixed translation error message. -/
def translateCompletion (s : ViewState) (result : Except String String) : ViewState :=
  match result with
  | Except.ok t => { s with translatedContent := some t }
  | Except.error _ =>
    { s with componentErrors := ceSet s.componentErrors "translation" "Translation failed." }

/-- The error message `streamDefinition` constructs for a topic. -/
def streamErrMsg (topic : String) : String :=
  "Could not generate content for \"" ++ topic ++ "\"."

/-- Observable behavior of the service generator `streamDefinition`,
given the fragments the underlying response delivers and whether the
fetch or the read loop fails: on failure the catch block yields one
extra `Error: ...` fragment and then raises the same message. -/
def streamDefinition (topic : String) (delivered : List String) (fails : Bool) : StreamRun :=
  if fails then
    ⟨delivered ++ ["Error: " ++ streamErrMsg topic], some (streamErrMsg topic)⟩
  else ⟨delivered, none⟩

/-! ## Closed forms used to state facts about runs -/

/-- The View-State right after the synchronous resets. -/
def resetState : ViewState :=
  { content := "", translatedContent := none, currentLanguage := "en", isLoading := true,
    error := none, componentErrors := [], asciiArt := none, relatedTopics := [],
    difficulty := none, historicalFact := none, animatedArt := none, isFading := true }

/-- The mutation trace of the synchronous resets. -/
def resetEvents : List (Nat × Mut) :=
  [(0, Mut.isFading true), (0, Mut.isLoading true), (0, Mut.error none), (0, Mut.content ""),
   (0, Mut.asciiArt none), (0, Mut.relatedTopics []), (0, Mut.difficulty none),
   (0, Mut.historicalFact none), (0, Mut.animatedArt none), (0, Mut.translatedContent none),
   (0, Mut.currentLanguage "en"), (0, Mut.componentErrorsReset)]

/-- The View-State after the transition delay has cleared the fade. -/
def fadeState : ViewState :=
  { resetState with isFading := false }

/-- Error-map contribution of one settled auxiliary outcome. -/
def auxErrs (m : List (String × String)) (res : Except String α) (key : String) :
    List (String × String) :=
  match res with
  | Except.ok _ => m
  | Except.error msg => ceSet m key msg

/-- The error map after processing all four settled outcomes. -/
def auxErrMap (aux : AuxOutcomes) : List (String × String) :=
  auxErrs (auxErrs (auxErrs (auxErrs [] aux.ascii "asciiArt")
    aux.related "relatedTopics") aux.fact "historicalFact") aux.animated "animatedArt"

/-- The View-State after the four settled outcomes are processed. -/
def auxState (s : ViewState) (aux : AuxOutcomes) : ViewState :=
  { s with
    asciiArt := (match aux.ascii with | Except.ok v => some v | Except.error _ => s.asciiArt),
    relatedTopics :=
      (match aux.related with | Except.ok v => v | Except.error _ => s.relatedTopics),
    historicalFact :=
      (match aux.fact with | Except.ok v => v | Except.error _ => s.historicalFact),
    animatedArt :=
      (match aux.animated with | Except.ok v => some v | Except.error _ => s.animatedArt),
    componentErrors :=
      auxErrs (auxErrs (auxErrs (auxErrs s.componentErrors aux.ascii "asciiArt")
        aux.related "relatedTopics") aux.fact "historicalFact") aux.animated "animatedArt" }

/-- The mutation trace of the settled-outcome processing. -/
def auxEvents (aux : AuxOutcomes) : List (Nat × Mut) :=
  (match aux.ascii with
   | Except.ok v => [(2, Mut.asciiArt (some v))]
   | Except.error m => [(2, Mut.componentError "asciiArt" m)]) ++
  (match aux.related with
   | Except.ok v => [(2, Mut.relatedTopics v)]
   | Except.error m => [(2, Mut.componentError "relatedTopics" m)]) ++
  (match aux.fact with
   | Except.ok v => [(2, Mut.historicalFact v)]
   | Except.error m => [(2, Mut.componentError "historicalFact" m)]) ++
  (match aux.animated with
   | Except.ok v => [(2, Mut.animatedArt (some v))]
   | Except.error m => [(2, Mut.componentError "animatedArt" m)])

/-- Successive buffer values published while consuming fragments,
starting from an already-accumulated prefix. -/
def prefixJoins (acc : String) : List String → List String
  | [] => []
  | c :: cs => (acc ++ c) :: prefixJoins (acc ++ c) cs

/-- The mutation trace of the consumption loop. -/
def contentEvs (i : Nat) (acc : String) : List String → List (Nat × Mut)
  | [] => []
  | c :: cs => (3 + i, Mut.content (acc ++ c)) :: contentEvs (i + 1) (acc ++ c) cs

/-- Token sequence `pctTokens` recovers from the encoding of one
character. -/
def tokChar (c : Char) : List (Char ⊕ Nat) :=
  if isUnreservedChar c then [Sum.inl c] else (utf8EncodeChar c.toNat).map Sum.inr

/-- Token run the lenient tokenizer recovers from a serialized journey:
each topic contributes the tokens of its encoding, separated by literal
comma tokens. -/
def journeyTokens : List String → List (Char ⊕ Nat)
  | [] => []
  | [t] => t.data.flatMap tokChar
  | t :: rest => t.data.flatMap tokChar ++ Sum.inl ',' :: journeyTokens rest

/-! ## Structural lemmas about the orchestrator run -/

theorem resetBlock_eq (init : ViewState) : resetBlock init = ⟨resetState, resetEvents⟩ := by
  cases init
  rfl

theorem applyAuxBlock_eq (r : RunAcc) (aux : AuxOutcomes) :
    applyAuxBlock r aux = ⟨auxState r.st aux, r.evs ++ auxEvents aux⟩ := by
  obtain ⟨a, rel, f, an⟩ := aux
  cases a <;> cases rel <;> cases f <;> cases an <;>
    simp [applyAuxBlock, auxState, auxEvents, auxErrs, emit, applyMut, List.append_assoc]

theorem streamLoop_none (chunks : List String) :
    ∀ (i : Nat) (acc : String) (s : ViewState) (evs : List (Nat × Mut)), s.content = acc →
      streamLoop none chunks i acc ⟨s, evs⟩ =
        ⟨acc ++ strJoin chunks, false,
         ⟨{ s with content := acc ++ strJoin chunks }, evs ++ contentEvs i acc chunks⟩⟩ := by
  induction chunks with
  | nil =>
    intro i acc s evs h
    subst h
    simp [streamLoop, strJoin, contentEvs]
  | cons c cs ih =>
    intro i acc s evs h
    have hstep := ih (i + 1) (acc ++ c) { s with content := acc ++ c }
      (evs ++ [(3 + i, Mut.content (acc ++ c))]) rfl
    simp only [streamLoop, cancelledAt, emit, applyMut, Bool.false_eq_true, if_false]
    rw [hstep]
    simp [strJoin, contentEvs, String.append_assoc, List.append_assoc]

theorem auxEvents_times (aux : AuxOutcomes) : ∀ p ∈ auxEvents aux, p.1 = 2 := by
  obtain ⟨a, rel, f, an⟩ := aux
  cases a <;> cases rel <;> cases f <;> cases an <;> simp [auxEvents]

theorem auxState_difficulty (s : ViewState) (aux : AuxOutcomes) :
    (auxState s aux).difficulty = s.difficulty := rfl

theorem auxState_content (s : ViewState) (aux : AuxOutcomes) :
    (auxState s aux).content = s.content := rfl

theorem auxState_error (s : ViewState) (aux : AuxOutcomes) :
    (auxState s aux).error = s.error := rfl

theorem auxState_translatedContent (s : ViewState) (aux : AuxOutcomes) :
    (auxState s aux).translatedContent = s.translatedContent := rfl

theorem fetchRun_none_eq (init : ViewState) (aux : AuxOutcomes) (chunks : List String)
    (diff : Except String String) :
    fetchRun init aux ⟨chunks, none⟩ diff none =
      ⟨{ auxState fadeState aux with
           content := strJoin chunks, isLoading := false,
           difficulty := if strJoin chunks = "" then none
             else match diff with
               | Except.ok d => some d
               | Except.error _ => none },
       (resetEvents ++ [(1, Mut.isFading false)]) ++ auxEvents aux ++ contentEvs 0 "" chunks ++
         [(3 + chunks.length, Mut.isLoading false)] ++
         (if strJoin chunks = "" then []
          else match diff with
            | Except.ok d => [(4 + chunks.length, Mut.difficulty (some d))]
            | Except.error _ => []),
       if strJoin chunks = "" then none else some (strJoin chunks)⟩ := by
  have hc : ∀ t, cancelledAt none t = false := fun _ => rfl
  simp only [fetchRun, resetBlock_eq, hc, Bool.false_eq_true, if_false]
  rw [show emit ⟨resetState, resetEvents⟩ 1 (Mut.isFading false) =
      ⟨fadeState, resetEvents ++ [(1, Mut.isFading false)]⟩ from rfl]
  rw [applyAuxBlock_eq]
  rw [streamLoop_none chunks 0 "" (auxState fadeState aux)
    ((resetEvents ++ [(1, Mut.isFading false)]) ++ auxEvents aux) rfl]
  simp only [String.empty_append, emit, applyMut]
  by_cases hj : strJoin chunks = "" <;> cases diff <;>
    simp [hj, List.append_assoc, auxState_difficulty, fadeState, resetState]

theorem fetchRun_failure_eq (init : ViewState) (aux : AuxOutcomes) (chunks : List String)
    (diff : Except String String) (m : String) :
    fetchRun init aux ⟨chunks, some m⟩ diff none =
      ⟨{ auxState fadeState aux with
           content := "", error := some m, isLoading := false },
       (resetEvents ++ [(1, Mut.isFading false)]) ++ auxEvents aux ++ contentEvs 0 "" chunks ++
         [(3 + chunks.length, Mut.error (some m)), (3 + chunks.length, Mut.content ""),
          (3 + chunks.length, Mut.isLoading false)],
       none⟩ := by
  have hc : ∀ t, cancelledAt none t = false := fun _ => rfl
  simp only [fetchRun, resetBlock_eq, hc, Bool.false_eq_true, if_false]
  rw [show emit ⟨resetState, resetEvents⟩ 1 (Mut.isFading false) =
      ⟨fadeState, resetEvents ++ [(1, Mut.isFading false)]⟩ from rfl]
  rw [applyAuxBlock_eq]
  rw [streamLoop_none chunks 0 "" (auxState fadeState aux)
    ((resetEvents ++ [(1, Mut.isFading false)]) ++ auxEvents aux) rfl]
  simp [emit, applyMut, List.append_assoc]

theorem resetEvents_times : ∀ p ∈ resetEvents, p.1 = 0 := by decide

theorem streamLoop_some_evs_acc (k : Nat) (chunks : List String) :
    ∀ (i : Nat) (acc : String) (r : RunAcc),
      ∃ es, (streamLoop (some k) chunks i acc r).r.evs = r.evs ++ es ∧
        ∀ p ∈ es, 3 + i ≤ p.1 ∧ p.1 < k := by
  induction chunks with
  | nil =>
    intro i acc r
    exact ⟨[], by simp [streamLoop], by simp⟩
  | cons c cs ih =>
    intro i acc r
    by_cases hk : k ≤ 3 + i
    · refine ⟨[], ?_, by simp⟩
      simp [streamLoop, cancelledAt, hk]
    · have hc : cancelledAt (some k) (3 + i) = false := by
        simp [cancelledAt, hk]
      obtain ⟨es, hes, hb⟩ := ih (i + 1) (acc ++ c) (emit r (3 + i) (Mut.content (acc ++ c)))
      refine ⟨(3 + i, Mut.content (acc ++ c)) :: es, ?_, ?_⟩
      · simp only [streamLoop, hc, Bool.false_eq_true, if_false]
        rw [hes]
        simp [emit]
      · intro p hp
        rcases List.mem_cons.mp hp with hp | hp
        · subst hp
          simp only []
          omega
        · have := hb p hp
          omega

theorem auxBlock_evs_bound (k : Nat) (hk3 : 3 ≤ k) (aux : AuxOutcomes) :
    ∀ p ∈ (applyAuxBlock (emit ⟨resetState, resetEvents⟩ 1 (Mut.isFading false)) aux).evs,
      p.1 < k := by
  rw [applyAuxBlock_eq]
  intro p hp
  rcases List.mem_append.mp hp with hp | hp
  · simp only [emit] at hp
    rcases List.mem_append.mp hp with hp | hp
    · have := resetEvents_times p hp
      omega
    · rw [List.mem_singleton] at hp
      subst hp
      show (1 : Nat) < k
      omega
  · have := auxEvents_times aux p hp
    omega

theorem fetchRun_some_evs (init : ViewState) (aux : AuxOutcomes) (stream : StreamRun)
    (diff : Except String String) (k : Nat) (hk : 1 ≤ k) :
    ∀ p ∈ (fetchRun init aux stream diff (some k)).events, p.1 < k := by
  obtain ⟨chunks, failure⟩ := stream
  by_cases h1 : k ≤ 1
  · have hc1 : cancelledAt (some k) 1 = true := by simp [cancelledAt, h1]
    simp only [fetchRun, resetBlock_eq, hc1, if_true]
    intro p hp
    have := resetEvents_times p hp
    omega
  · have hc1 : cancelledAt (some k) 1 = false := by simp [cancelledAt]; omega
    by_cases h2 : k ≤ 2
    · have hc2 : cancelledAt (some k) 2 = true := by simp [cancelledAt, h2]
      simp only [fetchRun, resetBlock_eq, hc1, Bool.false_eq_true, if_false, hc2, if_true]
      intro p hp
      simp only [emit] at hp
      rcases List.mem_append.mp hp with hp | hp
      · have := resetEvents_times p hp
        omega
      · rw [List.mem_singleton] at hp
        subst hp
        show (1 : Nat) < k
        omega
    · have hc2 : cancelledAt (some k) 2 = false := by simp [cancelledAt]; omega
      have hk3 : 3 ≤ k := by omega
      obtain ⟨es, hes, hbnd⟩ := streamLoop_some_evs_acc k chunks 0 ""
        (applyAuxBlock (emit ⟨resetState, resetEvents⟩ 1 (Mut.isFading false)) aux)
      have hpre := auxBlock_evs_bound k hk3 aux
      have hloop : ∀ p ∈ (streamLoop (some k) chunks 0 ""
          (applyAuxBlock (emit ⟨resetState, resetEvents⟩ 1 (Mut.isFading false)) aux)).r.evs,
          p.1 < k := by
        intro p hp
        rw [hes] at hp
        rcases List.mem_append.mp hp with hp | hp
        · exact hpre p hp
        · exact (hbnd p hp).2
      simp only [fetchRun, resetBlock_eq, hc1, hc2, Bool.false_eq_true, if_false]
      by_cases hbroke : (streamLoop (some k) chunks 0 ""
          (applyAuxBlock (emit ⟨resetState, resetEvents⟩ 1 (Mut.isFading false)) aux)).broke
      · simp only [hbroke, if_true]
        exact hloop
      · simp only [hbroke, Bool.false_eq_true, if_false]
        cases failure with
        | some m =>
          by_cases h3 : k ≤ 3 + chunks.length
          · have hc3 : cancelledAt (some k) (3 + chunks.length) = true := by
              simp [cancelledAt, h3]
            simp only [hc3, if_true]
            exact hloop
          · have hc3 : cancelledAt (some k) (3 + chunks.length) = false := by
              simp [cancelledAt]; omega
            simp only [hc3, Bool.false_eq_true, if_false, emit]
            intro p hp
            rcases List.mem_append.mp hp with hp | hp
            · rcases List.mem_append.mp hp with hp | hp
              · rcases List.mem_append.mp hp with hp | hp
                · exact hloop p hp
                · rw [List.mem_singleton] at hp
                  subst hp
                  show 3 + chunks.length < k
                  omega
              · rw [List.mem_singleton] at hp
                subst hp
                show 3 + chunks.length < k
                omega
            · rw [List.mem_singleton] at hp
              subst hp
              show 3 + chunks.length < k
              omega
        | none =>
          by_cases h3 : k ≤ 3 + chunks.length
          · have hc3 : cancelledAt (some k) (3 + chunks.length) = true := by
              simp [cancelledAt, h3]
            simp only [hc3, if_true]
            exact hloop
          · have hc3 : cancelledAt (some k) (3 + chunks.length) = false := by
              simp [cancelledAt]; omega
            have hr : ∀ p ∈ (emit (streamLoop (some k) chunks 0 ""
                (applyAuxBlock (emit ⟨resetState, resetEvents⟩ 1 (Mut.isFading false)) aux)).r
                (3 + chunks.length) (Mut.isLoading false)).evs, p.1 < k := by
              simp only [emit]
              intro p hp
              rcases List.mem_append.mp hp with hp | hp
              · exact hloop p hp
              · rw [List.mem_singleton] at hp
                subst hp
                show 3 + chunks.length < k
                omega
            simp only [hc3, Bool.false_eq_true, if_false]
            split
            · exact hr
            · split
              · by_cases h4 : k ≤ 4 + chunks.length
                · have hc4 : cancelledAt (some k) (4 + chunks.length) = true := by
                    simp [cancelledAt, h4]
                  simp only [hc4, if_true]
                  exact hr
                · have hc4 : cancelledAt (some k) (4 + chunks.length) = false := by
                    simp [cancelledAt]; omega
                  simp only [hc4, Bool.false_eq_true, if_false, emit]
                  intro p hp
                  rcases List.mem_append.mp hp with hp | hp
                  · exact hr p hp
                  · rw [List.mem_singleton] at hp
                    subst hp
                    show 4 + chunks.length < k
                    omega
              · exact hr

theorem strJoin_append (a b : List String) : strJoin (a ++ b) = strJoin a ++ strJoin b := by
  induction a with
  | nil => simp [strJoin]
  | cons x xs ih => simp [strJoin, ih, String.append_assoc]

theorem prefixJoins_getD (chunks : List String) :
    ∀ (acc : String) (j : Nat), j < chunks.length →
      (prefixJoins acc chunks).getD j "" = acc ++ strJoin (chunks.take (j + 1)) := by
  induction chunks with
  | nil =>
    intro acc j h
    simp at h
  | cons c cs ih =>
    intro acc j h
    cases j with
    | zero => simp [prefixJoins, strJoin]
    | succ j =>
      have hlen : j < cs.length := by simpa using h
      simp only [prefixJoins, List.getD_cons_succ, List.take_succ_cons, strJoin]
      rw [ih (acc ++ c) j hlen]
      simp [strJoin, String.append_assoc]

theorem filterMap_contentEvs (chunks : List String) :
    ∀ (i : Nat) (acc : String),
      (contentEvs i acc chunks).filterMap
        (fun p => match p.2 with | Mut.content c => some c | _ => none) =
        prefixJoins acc chunks := by
  induction chunks with
  | nil => intro i acc; simp [contentEvs, prefixJoins]
  | cons c cs ih => intro i acc; simp [contentEvs, prefixJoins, ih]

theorem filterMap_auxEvents (aux : AuxOutcomes) :
    (auxEvents aux).filterMap
      (fun p => match p.2 with | Mut.content c => some c | _ => none) = [] := by
  obtain ⟨a, rel, f, an⟩ := aux
  cases a <;> cases rel <;> cases f <;> cases an <;> simp [auxEvents]

theorem filterMap_resetEvents :
    resetEvents.filterMap
      (fun p => match p.2 with | Mut.content c => some c | _ => none) = [""] := by decide

theorem contentUpdates_none (init : ViewState) (aux : AuxOutcomes) (chunks : List String)
    (diff : Except String String) :
    contentUpdates (fetchRun init aux ⟨chunks, none⟩ diff none) = "" :: prefixJoins "" chunks := by
  by_cases hne : strJoin chunks = "" <;> cases diff <;>
    simp [contentUpdates, fetchRun_none_eq, hne, List.filterMap_append, filterMap_resetEvents,
      filterMap_auxEvents, filterMap_contentEvs]

theorem contentUpdates_failure (init : ViewState) (aux : AuxOutcomes) (chunks : List String)
    (diff : Except String String) (m : String) :
    contentUpdates (fetchRun init aux ⟨chunks, some m⟩ diff none) =
      ("" :: prefixJoins "" chunks) ++ [""] := by
  simp [contentUpdates, fetchRun_failure_eq, List.filterMap_append, filterMap_resetEvents,
    filterMap_auxEvents, filterMap_contentEvs]

theorem auxState_asciiArt_eq (aux : AuxOutcomes) :
    (auxState fadeState aux).asciiArt =
      (match aux.ascii with | Except.ok v => some v | Except.error _ => none) := by
  cases h : aux.ascii <;> simp [auxState, h, fadeState, resetState]

theorem auxState_relatedTopics_eq (aux : AuxOutcomes) :
    (auxState fadeState aux).relatedTopics =
      (match aux.related with | Except.ok v => v | Except.error _ => []) := by
  cases h : aux.related <;> simp [auxState, h, fadeState, resetState]

theorem auxState_historicalFact_eq (aux : AuxOutcomes) :
    (auxState fadeState aux).historicalFact =
      (match aux.fact with | Except.ok v => v | Except.error _ => none) := by
  cases h : aux.fact <;> simp [auxState, h, fadeState, resetState]

theorem auxState_animatedArt_eq (aux : AuxOutcomes) :
    (auxState fadeState aux).animatedArt =
      (match aux.animated with | Except.ok v => some v | Except.error _ => none) := by
  cases h : aux.animated <;> simp [auxState, h, fadeState, resetState]

theorem auxState_lookup_ascii (aux : AuxOutcomes) :
    ceLookup (auxState fadeState aux).componentErrors "asciiArt" =
      (match aux.ascii with | Except.ok _ => none | Except.error m => some m) := by
  obtain ⟨a, rel, f, an⟩ := aux
  cases a <;> cases rel <;> cases f <;> cases an <;>
    simp [auxState, auxErrs, ceSet, ceLookup, fadeState, resetState]

theorem auxState_lookup_related (aux : AuxOutcomes) :
    ceLookup (auxState fadeState aux).componentErrors "relatedTopics" =
      (match aux.related with | Except.ok _ => none | Except.error m => some m) := by
  obtain ⟨a, rel, f, an⟩ := aux
  cases a <;> cases rel <;> cases f <;> cases an <;>
    simp [auxState, auxErrs, ceSet, ceLookup, fadeState, resetState]

theorem auxState_lookup_fact (aux : AuxOutcomes) :
    ceLookup (auxState fadeState aux).componentErrors "historicalFact" =
      (match aux.fact with | Except.ok _ => none | Except.error m => some m) := by
  obtain ⟨a, rel, f, an⟩ := aux
  cases a <;> cases rel <;> cases f <;> cases an <;>
    simp [auxState, auxErrs, ceSet, ceLookup, fadeState, resetState]

theorem auxState_lookup_animated (aux : AuxOutcomes) :
    ceLookup (auxState fadeState aux).componentErrors "animatedArt" =
      (match aux.animated with | Except.ok _ => none | Except.error m => some m) := by
  obtain ⟨a, rel, f, an⟩ := aux
  cases a <;> cases rel <;> cases f <;> cases an <;>
    simp [auxState, auxErrs, ceSet, ceLookup, fadeState, resetState]

/-! ## Claim theorems: orchestrator behavior -/

/--
Claim C1, counterexample: the translation completion performs no
staleness check.  A translation issued for the old generation resolves
after a newer topic transition has begun (the old run is cancelled at
its first suspension check, leaving the fresh generation's reset
View-State with no overlay), yet the completion still installs its
stale overlay — contradicting the claim that any translation completion
is a no-op once a newer transition has started.
-/
theorem translate_stale_mutation_cex :
    ((fetchRun
        ⟨"old text", some "ancien", "fr", false, none, [], none, [], none, none, none, false⟩
        ⟨Except.error "e1", Except.error "e2", Except.error "e3", Except.error "e4"⟩
        ⟨[], none⟩ (Except.error "e5") (some 1)).state).translatedContent = none ∧
    (translateCompletion
        ((fetchRun
          ⟨"old text", some "ancien", "fr", false, none, [], none, [], none, none, none, false⟩
          ⟨Except.error "e1", Except.error "e2", Except.error "e3", Except.error "e4"⟩
          ⟨[], none⟩ (Except.error "e5") (some 1)).state)
        (Except.ok "Bonjour")).translatedContent = some "Bonjour" := by decide

/--
Claim C1 (amended): within the effect body every asynchronous
continuation — the post-delay continuation, the all-settled handler,
each primary-stream fragment application, and the difficulty-rating
callback — checks the generation's staleness flag before mutating
View-State, so once a newer topic transition begins at check `k` no
mutation carries a timestamp at or after `k`; stale successes and stale
failures are discarded alike.  The translation completion, however,
performs no such check and applies its result unconditionally.
-/
theorem stale_generation_spec (init : ViewState) (aux : AuxOutcomes) (stream : StreamRun)
    (diff : Except String String) (k : Nat) (s : ViewState) (t : String) (hk : 1 ≤ k) :
    (∀ p ∈ (fetchRun init aux stream diff (some k)).events, p.1 < k) ∧
    (translateCompletion s (Except.ok t)).translatedContent = some t :=
  ⟨fetchRun_some_evs init aux stream diff k hk, rfl⟩

/-- Witness for the amended C1 at a concrete cancelled run. -/
theorem stale_generation_spec_witness :
    1 ≤ 2 ∧
    ((∀ p ∈ (fetchRun resetState
        ⟨Except.error "a", Except.error "b", Except.error "c", Except.error "d"⟩
        ⟨["x"], none⟩ (Except.ok "Simple") (some 2)).events, p.1 < 2) ∧
     (translateCompletion resetState (Except.ok "Bonjour")).translatedContent = some "Bonjour") :=
  ⟨by decide,
   stale_generation_spec resetState
     ⟨Except.error "a", Except.error "b", Except.error "c", Except.error "d"⟩
     ⟨["x"], none⟩ (Except.ok "Simple") 2 resetState "Bonjour" (by decide)⟩

/--
Claim C2: for every assignment of outcomes to the four auxiliary calls
in one non-stale transition, exactly the successful calls store their
payloads in their own View-State fields and exactly the failed calls
store their messages in the component-error map under their own keys,
with no cross-contamination; no failure prevents a sibling result from
being applied or the primary stream from being consumed.
-/
theorem aux_outcome_isolation (init : ViewState) (aux : AuxOutcomes) (chunks : List String)
    (diff : Except String String) :
    (∀ v, aux.ascii = Except.ok v →
      (fetchRun init aux ⟨chunks, none⟩ diff none).state.asciiArt = some v ∧
      ceLookup (fetchRun init aux ⟨chunks, none⟩ diff none).state.componentErrors "asciiArt"
        = none) ∧
    (∀ m, aux.ascii = Except.error m →
      (fetchRun init aux ⟨chunks, none⟩ diff none).state.asciiArt = none ∧
      ceLookup (fetchRun init aux ⟨chunks, none⟩ diff none).state.componentErrors "asciiArt"
        = some m) ∧
    (∀ v, aux.related = Except.ok v →
      (fetchRun init aux ⟨chunks, none⟩ diff none).state.relatedTopics = v ∧
      ceLookup (fetchRun init aux ⟨chunks, none⟩ diff none).state.componentErrors "relatedTopics"
        = none) ∧
    (∀ m, aux.related = Except.error m →
      (fetchRun init aux ⟨chunks, none⟩ diff none).state.relatedTopics = [] ∧
      ceLookup (fetchRun init aux ⟨chunks, none⟩ diff none).state.componentErrors "relatedTopics"
        = some m) ∧
    (∀ v, aux.fact = Except.ok v →
      (fetchRun init aux ⟨chunks, none⟩ diff none).state.historicalFact = v ∧
      ceLookup (fetchRun init aux ⟨chunks, none⟩ diff none).state.componentErrors "historicalFact"
        = none) ∧
    (∀ m, aux.fact = Except.error m →
      (fetchRun init aux ⟨chunks, none⟩ diff none).state.historicalFact = none ∧
      ceLookup (fetchRun init aux ⟨chunks, none⟩ diff none).state.componentErrors "historicalFact"
        = some m) ∧
    (∀ v, aux.animated = Except.ok v →
      (fetchRun init aux ⟨chunks, none⟩ diff none).state.animatedArt = some v ∧
      ceLookup (fetchRun init aux ⟨chunks, none⟩ diff none).state.componentErrors "animatedArt"
        = none) ∧
    (∀ m, aux.animated = Except.error m →
      (fetchRun init aux ⟨chunks, none⟩ diff none).state.animatedArt = none ∧
      ceLookup (fetchRun init aux ⟨chunks, none⟩ diff none).state.componentErrors "animatedArt"
        = some m) ∧
    (fetchRun init aux ⟨chunks, none⟩ diff none).state.content = strJoin chunks := by
  rw [fetchRun_none_eq]
  refine ⟨?_, ?_, ?_, ?_, ?_, ?_, ?_, ?_, rfl⟩
  · intro v hv
    refine ⟨?_, ?_⟩
    · show (auxState fadeState aux).asciiArt = some v
      rw [auxState_asciiArt_eq, hv]
    · show ceLookup (auxState fadeState aux).componentErrors "asciiArt" = none
      rw [auxState_lookup_ascii, hv]
  · intro m hm
    refine ⟨?_, ?_⟩
    · show (auxState fadeState aux).asciiArt = none
      rw [auxState_asciiArt_eq, hm]
    · show ceLookup (auxState fadeState aux).componentErrors "asciiArt" = some m
      rw [auxState_lookup_ascii, hm]
  · intro v hv
    refine ⟨?_, ?_⟩
    · show (auxState fadeState aux).relatedTopics = v
      rw [auxState_relatedTopics_eq, hv]
    · show ceLookup (auxState fadeState aux).componentErrors "relatedTopics" = none
      rw [auxState_lookup_related, hv]
  · intro m hm
    refine ⟨?_, ?_⟩
    · show (auxState fadeState aux).relatedTopics = []
      rw [auxState_relatedTopics_eq, hm]
    · show ceLookup (auxState fadeState aux).componentErrors "relatedTopics" = some m
      rw [auxState_lookup_related, hm]
  · intro v hv
    refine ⟨?_, ?_⟩
    · show (auxState fadeState aux).historicalFact = v
      rw [auxState_historicalFact_eq, hv]
    · show ceLookup (auxState fadeState aux).componentErrors "historicalFact" = none
      rw [auxState_lookup_fact, hv]
  · intro m hm
    refine ⟨?_, ?_⟩
    · show (auxState fadeState aux).historicalFact = none
      rw [auxState_historicalFact_eq, hm]
    · show ceLookup (auxState fadeState aux).componentErrors "historicalFact" = some m
      rw [auxState_lookup_fact, hm]
  · intro v hv
    refine ⟨?_, ?_⟩
    · show (auxState fadeState aux).animatedArt = some v
      rw [auxState_animatedArt_eq, hv]
    · show ceLookup (auxState fadeState aux).componentErrors "animatedArt" = none
      rw [auxState_lookup_animated, hv]
  · intro m hm
    refine ⟨?_, ?_⟩
    · show (auxState fadeState aux).animatedArt = none
      rw [auxState_animatedArt_eq, hm]
    · show ceLookup (auxState fadeState aux).componentErrors "animatedArt" = some m
      rw [auxState_lookup_animated, hm]

/-- Witness for C2 at a mixed success/failure assignment. -/
theorem aux_outcome_isolation_witness :
    (fetchRun resetState
      ⟨Except.ok ⟨"ART"⟩, Except.error "no related", Except.ok (some "a fact"),
       Except.error "no anim"⟩
      ⟨["x"], none⟩ (Except.ok "Simple") none).state.asciiArt = some ⟨"ART"⟩ ∧
    ceLookup (fetchRun resetState
      ⟨Except.ok ⟨"ART"⟩, Except.error "no related", Except.ok (some "a fact"),
       Except.error "no anim"⟩
      ⟨["x"], none⟩ (Except.ok "Simple") none).state.componentErrors "relatedTopics"
      = some "no related" :=
  ⟨((aux_outcome_isolation resetState
      ⟨Except.ok ⟨"ART"⟩, Except.error "no related", Except.ok (some "a fact"),
       Except.error "no anim"⟩ ["x"] (Except.ok "Simple")).1 ⟨"ART"⟩ rfl).1,
   ((aux_outcome_isolation resetState
      ⟨Except.ok ⟨"ART"⟩, Except.error "no related", Except.ok (some "a fact"),
       Except.error "no anim"⟩ ["x"] (Except.ok "Simple")).2.2.2.1 "no related" rfl).2⟩

/--
Claim C5: in a non-stale transition whose primary stream delivers its
fragments in order without failing, the published primary text after the
`j`-th fragment equals the concatenation of the first `j + 1` fragments
(one `setContent` per fragment beyond the initial reset, monotone and in
order), the final primary text is the concatenation of all fragments,
and for fragments `"Hel"`, `"lo"` the trace is exactly the reset plus
two incremental updates ending in `"Hello"`.
-/
theorem stream_accumulation_spec (init : ViewState) (aux : AuxOutcomes) (chunks : List String)
    (diff : Except String String) (j : Nat) (hj : j < chunks.length) :
    contentUpdates (fetchRun init aux ⟨chunks, none⟩ diff none) = "" :: prefixJoins "" chunks ∧
    (prefixJoins "" chunks).getD j "" = strJoin (chunks.take (j + 1)) ∧
    (fetchRun init aux ⟨chunks, none⟩ diff none).state.content = strJoin chunks ∧
    contentUpdates (fetchRun init aux ⟨["Hel", "lo"], none⟩ diff none) = ["", "Hel", "Hello"] := by
  refine ⟨contentUpdates_none init aux chunks diff, ?_, ?_, ?_⟩
  · have h := prefixJoins_getD chunks "" j hj
    simpa using h
  · rw [fetchRun_none_eq]
  · rw [contentUpdates_none init aux ["Hel", "lo"] diff]
    decide

/-- Witness for C5 on the two-fragment stream at position 1. -/
theorem stream_accumulation_spec_witness :
    1 < (["Hel", "lo"] : List String).length ∧
    (prefixJoins "" ["Hel", "lo"]).getD 1 "" = strJoin (["Hel", "lo"].take 2) :=
  ⟨by decide,
   (stream_accumulation_spec resetState
     ⟨Except.error "a", Except.error "b", Except.error "c", Except.error "d"⟩
     ["Hel", "lo"] (Except.ok "Simple") 1 (by decide)).2.1⟩

/--
Claim C6: in a non-stale transition whose primary stream raises a
failure at any point, the run ends with the primary text empty (the
accumulated buffer is discarded), the failure message published as the
primary error, no difficulty-rating call issued, and loading cleared.
-/
theorem stream_failure_spec (init : ViewState) (aux : AuxOutcomes) (chunks : List String)
    (diff : Except String String) (m : String) :
    (fetchRun init aux ⟨chunks, some m⟩ diff none).state.content = "" ∧
    (fetchRun init aux ⟨chunks, some m⟩ diff none).state.error = some m ∧
    (fetchRun init aux ⟨chunks, some m⟩ diff none).diffCall = none ∧
    (fetchRun init aux ⟨chunks, some m⟩ diff none).state.isLoading = false := by
  rw [fetchRun_failure_eq]
  exact ⟨rfl, rfl, rfl, rfl⟩

/--
Claim C9: in a non-stale transition the difficulty-rating call is issued
exactly when the stream completes without failure and the accumulated
text is non-empty, and it is issued against that final accumulated text;
its success populates the difficulty field, and its failure changes no
View-State field at all (swallowed, no error entry).
-/
theorem difficulty_policy_spec (init : ViewState) (aux : AuxOutcomes) (chunks : List String)
    (m d e : String) :
    ((fetchRun init aux ⟨chunks, none⟩ (Except.ok d) none).diffCall =
        if strJoin chunks = "" then none else some (strJoin chunks)) ∧
    ((fetchRun init aux ⟨chunks, none⟩ (Except.error e) none).diffCall =
        if strJoin chunks = "" then none else some (strJoin chunks)) ∧
    ((fetchRun init aux ⟨chunks, some m⟩ (Except.ok d) none).diffCall = none) ∧
    (strJoin chunks ≠ "" →
      (fetchRun init aux ⟨chunks, none⟩ (Except.ok d) none).state.difficulty = some d) ∧
    ((fetchRun init aux ⟨chunks, none⟩ (Except.error e) none).state =
      { (fetchRun init aux ⟨chunks, none⟩ (Except.ok d) none).state with difficulty := none }) := by
  rw [fetchRun_none_eq, fetchRun_none_eq, fetchRun_failure_eq]
  refine ⟨rfl, rfl, rfl, ?_, ?_⟩
  · intro h
    simp [h]
  · by_cases h : strJoin chunks = "" <;> simp [h]

/-- Witness for C9 on a non-empty stream. -/
theorem difficulty_policy_spec_witness :
    strJoin ["Hello"] ≠ "" ∧
    (fetchRun resetState
      ⟨Except.ok ⟨"A"⟩, Except.ok ["R"], Except.ok (some "F"), Except.ok ⟨["G"]⟩⟩
      ⟨["Hello"], none⟩ (Except.ok "Simple") none).state.difficulty = some "Simple" :=
  ⟨by decide,
   (difficulty_policy_spec resetState
     ⟨Except.ok ⟨"A"⟩, Except.ok ["R"], Except.ok (some "F"), Except.ok ⟨["G"]⟩⟩
     ["Hello"] "m" "Simple" "e").2.2.2.1 (by decide)⟩

/--
Claim C10 (implicit): when the underlying fetch or read fails, the
service generator first yields one extra fragment
`Error: Could not generate content for "<topic>".` and only then raises
an error carrying the message `Could not generate content for
"<topic>".`; consequently the orchestrator's buffer transiently contains
that error fragment as ordinary content (it is the last published buffer
value) before the failure handler clears the buffer and publishes the
error.
-/
theorem stream_error_fragment_spec (topic : String) (delivered : List String) (init : ViewState)
    (aux : AuxOutcomes) (diff : Except String String) :
    (streamDefinition topic delivered true).chunks =
        delivered ++ ["Error: " ++ streamErrMsg topic] ∧
    (streamDefinition topic delivered true).failure = some (streamErrMsg topic) ∧
    streamErrMsg topic = "Could not generate content for \"" ++ topic ++ "\"." ∧
    contentUpdates (fetchRun init aux (streamDefinition topic delivered true) diff none) =
        ("" :: prefixJoins "" (delivered ++ ["Error: " ++ streamErrMsg topic])) ++ [""] ∧
    (prefixJoins "" (delivered ++ ["Error: " ++ streamErrMsg topic])).getD delivered.length "" =
        strJoin delivered ++ ("Error: " ++ streamErrMsg topic) ∧
    (fetchRun init aux (streamDefinition topic delivered true) diff none).state.content = "" ∧
    (fetchRun init aux (streamDefinition topic delivered true) diff none).state.error =
        some (streamErrMsg topic) := by
  have hsd : streamDefinition topic delivered true =
      ⟨delivered ++ ["Error: " ++ streamErrMsg topic], some (streamErrMsg topic)⟩ := rfl
  rw [hsd]
  refine ⟨rfl, rfl, rfl, ?_, ?_, ?_, ?_⟩
  · exact contentUpdates_failure init aux
      (delivered ++ ["Error: " ++ streamErrMsg topic]) diff (streamErrMsg topic)
  · rw [prefixJoins_getD (delivered ++ ["Error: " ++ streamErrMsg topic]) ""
      delivered.length (by simp)]
    rw [show delivered.length + 1 = (delivered ++ ["Error: " ++ streamErrMsg topic]).length
      by simp]
    rw [List.take_length, strJoin_append]
    simp [strJoin]
  · rw [fetchRun_failure_eq]
  · rw [fetchRun_failure_eq]

/-! ## Claim theorems: navigation, seeding, translation -/

/--
Claim C3: navigating to a new topic is a no-op when the trimmed input is
empty or case-insensitively equal to the current topic; otherwise the
new journey is the prefix up to the current index with the trimmed topic
appended and the index advances to the new last position (from an
in-bounds index `i`, to `i + 1`); from `[A, B, C]` at index 0,
navigating to `D` yields `[A, D]` at index 1.
-/
theorem navigate_to_topic_spec (h : List String) (i : Int) (t : String) :
    ((jsTrim t = "" ∨ jsToLower (jsTrim t) = jsToLower (currentTopicOf h i)) →
      navigateToTopic h i t = (h, i)) ∧
    (¬(jsTrim t = "" ∨ jsToLower (jsTrim t) = jsToLower (currentTopicOf h i)) →
      0 ≤ i → i < (h.length : Int) →
      navigateToTopic h i t = (h.take (i.toNat + 1) ++ [jsTrim t], i + 1)) ∧
    (¬(jsTrim t = "" ∨ jsToLower (jsTrim t) = jsToLower (currentTopicOf h i)) →
      (navigateToTopic h i t).2 = ((navigateToTopic h i t).1.length : Int) - 1) ∧
    navigateToTopic ["A", "B", "C"] 0 "D" = (["A", "D"], 1) := by
  refine ⟨?_, ?_, ?_, by decide⟩
  · intro hcond
    simp only [navigateToTopic]
    rw [if_pos hcond]
  · intro hcond h0 hlen
    simp only [navigateToTopic]
    rw [if_neg hcond]
    have hslice : jsSliceTo h (i + 1) = h.take (i.toNat + 1) := by
      simp only [jsSliceTo]
      rw [if_pos (by omega)]
      congr 1
      omega
    rw [hslice]
    have htk : (h.take (i.toNat + 1)).length = i.toNat + 1 := by
      rw [List.length_take]
      omega
    simp only [Prod.mk.injEq, List.length_append, htk, List.length_singleton, true_and,
      eq_self_iff_true]
    omega
  · intro hcond
    simp only [navigateToTopic]
    rw [if_neg hcond]

/-- Witness for C3: the case-insensitive no-op branch at a concrete state. -/
theorem navigate_to_topic_spec_witness :
    (jsTrim " B " = "" ∨ jsToLower (jsTrim " B ") = jsToLower (currentTopicOf ["A", "b"] 1)) ∧
    navigateToTopic ["A", "b"] 1 " B " = (["A", "b"], 1) :=
  ⟨Or.inr (by decide), (navigate_to_topic_spec ["A", "b"] 1 " B ").1 (Or.inr (by decide))⟩

/--
Claim C4, counterexample: the seed parameter `","` (present and
non-empty, so the default-seed fallback is not taken) splits into two
empty entries which are all dropped by the filter, leaving an empty
journey with history index `-1` — the journey does not contain at least
one entry and the index is out of bounds.
-/
theorem journey_invariant_cex :
    appInit (some ",") = ([], -1) ∧ ¬ 0 ≤ (appInit (some ",")).2 := by decide

/--
Claim C4 (amended): whenever the seed produces a non-empty journey — in
particular when the parameter is absent, where the default seed topic is
used — the initial index satisfies the bounds `0 ≤ index < length`; a
seed parameter decoding to only empty entries instead yields an empty
journey with index `-1`.  Navigating to a new topic from any in-bounds
state preserves non-emptiness and the bounds, and jumping to a valid
existing history position preserves the journey and the bounds.
-/
theorem journey_invariant_amended (p : Option String) (h : List String) (i j : Int)
    (t : String) :
    (getInitialHistory p ≠ [] →
      0 ≤ (appInit p).2 ∧ (appInit p).2 < ((appInit p).1.length : Int)) ∧
    getInitialHistory none = ["Metacognition"] ∧
    (h ≠ [] → 0 ≤ i → i < (h.length : Int) →
      (navigateToTopic h i t).1 ≠ [] ∧ 0 ≤ (navigateToTopic h i t).2 ∧
      (navigateToTopic h i t).2 < ((navigateToTopic h i t).1.length : Int)) ∧
    (0 ≤ j → j < (h.length : Int) →
      (handleHistoryNavigation h j).1 = h ∧ 0 ≤ (handleHistoryNavigation h j).2 ∧
      (handleHistoryNavigation h j).2 < ((handleHistoryNavigation h j).1.length : Int)) := by
  refine ⟨?_, rfl, ?_, ?_⟩
  · intro hne
    have hlen : 0 < (getInitialHistory p).length := List.length_pos.mpr hne
    simp only [appInit]
    omega
  · intro hne h0 hlen
    simp only [navigateToTopic]
    split
    · exact ⟨hne, h0, hlen⟩
    · refine ⟨by simp, ?_, ?_⟩ <;>
        simp only [List.length_append, List.length_singleton] <;> omega
  · intro h0 hlen
    exact ⟨rfl, h0, by simpa [handleHistoryNavigation] using hlen⟩

/-- Witness for the amended C4 at a concrete two-topic seed. -/
theorem journey_invariant_amended_witness :
    getInitialHistory (some "A,B") ≠ [] ∧
    (0 ≤ (appInit (some "A,B")).2 ∧
      (appInit (some "A,B")).2 < ((appInit (some "A,B")).1.length : Int)) :=
  ⟨by decide, (journey_invariant_amended (some "A,B") ["A"] 0 0 "t").1 (by decide)⟩

/--
Claim C8: the translate operation is a complete no-op while a primary
fetch is in progress or when there is no primary text; with text present
and loading finished, invoking it with the base language code clears the
stored translation overlay without a network call and leaves every other
View-State field (text, errors, payloads) unchanged; a failing
non-base-language translation records only the fixed translation error
message under the `translation` key, leaving all other error and text
fields unchanged.
-/
theorem translate_operation_spec (s : ViewState) (lang e : String) :
    ((s.content = "" ∨ s.isLoading = true) → handleTranslate s lang = (s, false)) ∧
    (s.content ≠ "" → s.isLoading = false →
      handleTranslate s "en" =
        ({ s with currentLanguage := "en", translatedContent := none }, false)) ∧
    (s.content ≠ "" → s.isLoading = false → lang ≠ "en" →
      handleTranslate s lang = ({ s with currentLanguage := lang }, true) ∧
      translateCompletion { s with currentLanguage := lang } (Except.error e) =
        { s with currentLanguage := lang,
                 componentErrors := ceSet s.componentErrors "translation" "Translation failed." }) := by
  refine ⟨?_, ?_, ?_⟩
  · intro hguard
    simp only [handleTranslate]
    rw [if_pos hguard]
  · intro hc hl
    have hguard : ¬(s.content = "" ∨ s.isLoading = true) := by simp [hc, hl]
    simp only [handleTranslate]
    rw [if_neg hguard]
    simp
  · intro hc hl hlang
    have hguard : ¬(s.content = "" ∨ s.isLoading = true) := by simp [hc, hl]
    refine ⟨?_, rfl⟩
    simp only [handleTranslate]
    rw [if_neg hguard, if_neg hlang]

/-- Witness for C8: translate-to-base-language on a loaded state. -/
theorem translate_operation_spec_witness :
    ((⟨"Hello", some "Hola", "es", false, none, [], none, [], none, none, none, false⟩ :
        ViewState).content ≠ "") ∧
    handleTranslate
        ⟨"Hello", some "Hola", "es", false, none, [], none, [], none, none, none, false⟩ "en" =
      (⟨"Hello", none, "en", false, none, [], none, [], none, none, none, false⟩, false) :=
  ⟨by decide,
   (translate_operation_spec
     ⟨"Hello", some "Hola", "es", false, none, [], none, [], none, none, none, false⟩
     "fr" "x").2.1 (by decide) rfl⟩

/-! ## Round-trip of the journey serialization -/

theorem hexVal_hexChar : ∀ d, d < 16 → hexDigitVal (hexDigitChar d) = some d := by decide

theorem hexChar_ne_comma : ∀ d, d < 16 → hexDigitChar d ≠ ',' := by decide

theorem hexChar_ne_pct : ∀ d, d < 16 → hexDigitChar d ≠ '%' := by decide

theorem char_toNat_lt (c : Char) : c.toNat < 1114112 := by
  rcases c.valid with h | h
  · exact Nat.lt_trans h (by norm_num)
  · exact h.2

theorem utf8EncodeChar_lt256 (n : Nat) (hn : n < 1114112) :
    ∀ b ∈ utf8EncodeChar n, b < 256 := by
  intro b hb
  simp only [utf8EncodeChar] at hb
  by_cases h1 : n < 128
  · simp [h1] at hb
    omega
  · by_cases h2 : n < 2048
    · simp [h1, h2] at hb
      rcases hb with rfl | rfl <;> omega
    · by_cases h3 : n < 65536
      · simp [h1, h2, h3] at hb
        rcases hb with rfl | rfl | rfl <;> omega
      · simp [h1, h2, h3] at hb
        rcases hb with rfl | rfl | rfl | rfl <;> omega

theorem pctTokens_literal (c : Char) (hc : ¬ c = '%') (rest : List Char) :
    pctTokens (c :: rest) = (pctTokens rest).map (fun ts => Sum.inl c :: ts) := by
  rw [pctTokens.eq_def]
  simp only [hc, if_false]
  cases pctTokens rest <;> rfl

theorem pctTokens_pctByte (b : Nat) (hb : b < 256) (rest : List Char) :
    pctTokens (pctByte b ++ rest) = (pctTokens rest).map (fun ts => Sum.inr b :: ts) := by
  have h1 := hexVal_hexChar (b / 16) (by omega)
  have h2 := hexVal_hexChar (b % 16) (by omega)
  have hb' : 16 * (b / 16) + b % 16 = b := by omega
  cases hrest : pctTokens rest <;>
    simp [pctByte, pctTokens, h1, h2, hb', hrest]

theorem pctTokens_bytes (bs : List Nat) (hbs : ∀ b ∈ bs, b < 256) (rest : List Char) :
    pctTokens (bs.flatMap pctByte ++ rest) =
      (pctTokens rest).map (fun ts => bs.map Sum.inr ++ ts) := by
  induction bs with
  | nil =>
    simp
  | cons b bs ih =>
    have hb : b < 256 := hbs b (List.mem_cons_self b bs)
    have hbs' : ∀ x ∈ bs, x < 256 := fun x hx => hbs x (List.mem_cons_of_mem b hx)
    simp only [List.flatMap_cons, List.append_assoc]
    rw [pctTokens_pctByte b hb, ih hbs']
    cases pctTokens rest <;> rfl

theorem unreserved_ne_pct (c : Char) (h : isUnreservedChar c = true) : ¬ c = '%' := by
  intro hc
  subst hc
  exact absurd h (by decide)

theorem unreserved_ne_comma (c : Char) (h : isUnreservedChar c = true) : ¬ c = ',' := by
  intro hc
  subst hc
  exact absurd h (by decide)

theorem pctTokens_encChar (c : Char) (rest : List Char) :
    pctTokens (encChar c ++ rest) = (pctTokens rest).map (fun ts => tokChar c ++ ts) := by
  by_cases hu : isUnreservedChar c
  · simp only [encChar, tokChar, hu, if_true, List.cons_append, List.nil_append]
    rw [pctTokens_literal c (unreserved_ne_pct c hu)]
  · simp only [encChar, tokChar, hu, Bool.false_eq_true, if_false]
    exact pctTokens_bytes (utf8EncodeChar c.toNat)
      (utf8EncodeChar_lt256 c.toNat (char_toNat_lt c)) rest

theorem pctTokens_encodeList (l : List Char) :
    pctTokens (l.flatMap encChar) = some (l.flatMap tokChar) := by
  induction l with
  | nil => rfl
  | cons c cs ih =>
    simp only [List.flatMap_cons]
    rw [pctTokens_encChar c, ih]
    rfl

theorem utf8First_one (b : Nat) (ts : List (Char ⊕ Nat)) (h1 : b < 128) :
    utf8First b ts = some (b, 0) := by
  simp [utf8First, h1]

theorem utf8First_two (b b2 : Nat) (ts : List (Char ⊕ Nat))
    (h1 : ¬ b < 128) (h2 : ¬ b < 194) (h3 : b < 224) (h4 : 128 ≤ b2 ∧ b2 < 192) :
    utf8First b (Sum.inr b2 :: ts) = some ((b - 192) * 64 + (b2 - 128), 1) := by
  simp only [utf8First]
  rw [if_neg h1, if_neg h2, if_pos h3]
  rw [if_pos h4]

theorem utf8First_three (b b2 b3 : Nat) (ts : List (Char ⊕ Nat))
    (h1 : ¬ b < 128) (h2 : ¬ b < 194) (h3 : ¬ b < 224) (h4 : b < 240)
    (h5 : (128 ≤ b2 ∧ b2 < 192) ∧ (128 ≤ b3 ∧ b3 < 192) ∧
      (b = 224 → 160 ≤ b2) ∧ (b = 237 → b2 < 160)) :
    utf8First b (Sum.inr b2 :: Sum.inr b3 :: ts) =
      some ((b - 224) * 4096 + (b2 - 128) * 64 + (b3 - 128), 2) := by
  simp only [utf8First]
  rw [if_neg h1, if_neg h2, if_neg h3, if_pos h4]
  rw [if_pos h5]

theorem utf8First_four (b b2 b3 b4 : Nat) (ts : List (Char ⊕ Nat))
    (h1 : ¬ b < 128) (h2 : ¬ b < 194) (h3 : ¬ b < 224) (h4 : ¬ b < 240) (h5 : b < 245)
    (h6 : (128 ≤ b2 ∧ b2 < 192) ∧ (128 ≤ b3 ∧ b3 < 192) ∧ (128 ≤ b4 ∧ b4 < 192) ∧
      (b = 240 → 144 ≤ b2) ∧ (b = 244 → b2 < 144)) :
    utf8First b (Sum.inr b2 :: Sum.inr b3 :: Sum.inr b4 :: ts) =
      some ((b - 240) * 262144 + (b2 - 128) * 4096 + (b3 - 128) * 64 + (b4 - 128), 3) := by
  simp only [utf8First]
  rw [if_neg h1, if_neg h2, if_neg h3, if_neg h4, if_pos h5]
  rw [if_pos h6]

theorem utf8DecodeAux_encodeChar (n : Nat) (f : Nat)
    (hv : n < 55296 ∨ 57343 < n ∧ n < 1114112) (ts : List (Char ⊕ Nat)) :
    utf8DecodeAux (f + 1) ((utf8EncodeChar n).map Sum.inr ++ ts) =
      (utf8DecodeAux f ts).map (fun cs => Char.ofNat n :: cs) := by
  by_cases h1 : n < 128
  · simp only [utf8EncodeChar, h1, if_true, List.map_cons, List.map_nil, List.cons_append,
      List.nil_append]
    rw [utf8DecodeAux, utf8First_one n ts h1]
    rfl
  · by_cases h2 : n < 2048
    · simp only [utf8EncodeChar, h1, h2, if_true, Bool.false_eq_true, if_false, List.map_cons,
        List.map_nil, List.cons_append, List.nil_append]
      rw [utf8DecodeAux, utf8First_two (192 + n / 64) (128 + n % 64) ts
        (by omega) (by omega) (by omega) (by omega)]
      rw [show (192 + n / 64 - 192) * 64 + (128 + n % 64 - 128) = n by omega]
      rfl
    · by_cases h3 : n < 65536
      · simp only [utf8EncodeChar, h1, h2, h3, if_true, Bool.false_eq_true, if_false,
          List.map_cons, List.map_nil, List.cons_append, List.nil_append]
        rw [utf8DecodeAux, utf8First_three (224 + n / 4096) (128 + n / 64 % 64) (128 + n % 64)
          ts (by omega) (by omega) (by omega) (by omega) (by omega)]
        rw [show (224 + n / 4096 - 224) * 4096 + (128 + n / 64 % 64 - 128) * 64 +
          (128 + n % 64 - 128) = n by omega]
        rfl
      · simp only [utf8EncodeChar, h1, h2, h3, if_true, Bool.false_eq_true, if_false,
          List.map_cons, List.map_nil, List.cons_append, List.nil_append]
        rw [utf8DecodeAux, utf8First_four (240 + n / 262144) (128 + n / 4096 % 64)
          (128 + n / 64 % 64) (128 + n % 64) ts
          (by omega) (by omega) (by omega) (by omega) (by omega) (by omega)]
        rw [show (240 + n / 262144 - 240) * 262144 + (128 + n / 4096 % 64 - 128) * 4096 +
          (128 + n / 64 % 64 - 128) * 64 + (128 + n % 64 - 128) = n by omega]
        rfl

theorem utf8EncodeChar_ne_nil (n : Nat) : utf8EncodeChar n ≠ [] := by
  simp only [utf8EncodeChar]
  split <;> [skip; split] <;> [simp; simp; split <;> simp]

theorem encChar_ne_nil (c : Char) : encChar c ≠ [] := by
  by_cases hu : isUnreservedChar c
  · simp [encChar, hu]
  · simp only [encChar, hu, Bool.false_eq_true, if_false]
    intro h
    rcases hne : utf8EncodeChar c.toNat with _ | ⟨b, bs⟩
    · exact utf8EncodeChar_ne_nil c.toNat hne
    · rw [hne] at h
      simp [pctByte] at h

theorem utf8DecodeAux_tokChar (c : Char) (f : Nat) (ts : List (Char ⊕ Nat)) :
    utf8DecodeAux (f + 1) (tokChar c ++ ts) =
      (utf8DecodeAux f ts).map (fun cs => c :: cs) := by
  by_cases hu : isUnreservedChar c
  · simp only [tokChar, hu, if_true, List.cons_append, List.nil_append]
    rw [utf8DecodeAux]
  · simp only [tokChar, hu, Bool.false_eq_true, if_false]
    rw [utf8DecodeAux_encodeChar c.toNat f c.valid ts, Char.ofNat_toNat]

theorem utf8DecodeAux_tokens (l : List Char) :
    ∀ f, (l.flatMap tokChar).length ≤ f → utf8DecodeAux f (l.flatMap tokChar) = some l := by
  induction l with
  | nil =>
    intro f _
    cases f <;> rfl
  | cons c cs ih =>
    intro f hf
    have h1 : 1 ≤ (tokChar c).length := by
      by_cases hu : isUnreservedChar c
      · simp [tokChar, hu]
      · simp only [tokChar, hu, Bool.false_eq_true, if_false, List.length_map]
        rcases hne : utf8EncodeChar c.toNat with _ | ⟨b, bs⟩
        · exact absurd hne (utf8EncodeChar_ne_nil c.toNat)
        · simp
    rw [List.flatMap_cons] at hf ⊢
    have hlen : (cs.flatMap tokChar).length + 1 ≤ f := by
      rw [List.length_append] at hf
      omega
    obtain ⟨g, rfl⟩ : ∃ g, f = g + 1 := ⟨f - 1, by omega⟩
    rw [utf8DecodeAux_tokChar c g]
    rw [ih g (by omega)]
    rfl

theorem utf8DecodeTokens_tokens (l : List Char) :
    utf8DecodeTokens (l.flatMap tokChar) = some l :=
  utf8DecodeAux_tokens l (l.flatMap tokChar).length le_rfl

theorem decode_encode (s : String) : decodeURIComponent (encodeURIComponent s) = some s := by
  simp only [decodeURIComponent, encodeURIComponent]
  rw [pctTokens_encodeList s.data]
  dsimp only
  rw [utf8DecodeTokens_tokens s.data]

theorem encodeURIComponent_ne_empty (t : String) (h : t ≠ "") : encodeURIComponent t ≠ "" := by
  intro he
  apply h
  rcases hd : t.data with _ | ⟨c, cs⟩
  · cases t
    simp at hd
    simp [hd]
  · exfalso
    have : (encodeURIComponent t).data = [] := by rw [he]
    rw [show (encodeURIComponent t).data = t.data.flatMap encChar from rfl, hd] at this
    simp only [List.flatMap_cons, List.append_eq_nil] at this
    exact encChar_ne_nil c this.1

theorem encChar_ne_comma (c : Char) : ∀ x ∈ encChar c, ¬ x = ',' := by
  intro x hx
  by_cases hu : isUnreservedChar c
  · simp only [encChar, hu, if_true, List.mem_singleton] at hx
    subst hx
    exact unreserved_ne_comma x hu
  · simp only [encChar, hu, Bool.false_eq_true, if_false] at hx
    rw [List.mem_flatMap] at hx
    obtain ⟨b, hb, hxb⟩ := hx
    have hb256 : b < 256 := utf8EncodeChar_lt256 c.toNat (char_toNat_lt c) b hb
    simp only [pctByte, List.mem_cons, List.mem_singleton, List.not_mem_nil, or_false] at hxb
    rcases hxb with rfl | rfl | rfl
    · decide
    · exact hexChar_ne_comma (b / 16) (by omega)
    · exact hexChar_ne_comma (b % 16) (by omega)

theorem splitCharComma_noComma (l : List Char) (h : ∀ c ∈ l, ¬ c = ',') :
    splitCharComma l = [l] := by
  induction l with
  | nil => rfl
  | cons c cs ih =>
    have hc : ¬ c = ',' := h c (List.mem_cons_self c cs)
    have ih' := ih (fun x hx => h x (List.mem_cons_of_mem c hx))
    simp [splitCharComma, hc, ih']

theorem splitCharComma_append (x r : List Char) (h : ∀ c ∈ x, ¬ c = ',') :
    splitCharComma (x ++ ',' :: r) = x :: splitCharComma r := by
  induction x with
  | nil => simp [splitCharComma]
  | cons c cs ih =>
    have hc : ¬ c = ',' := h c (List.mem_cons_self c cs)
    have ih' := ih (fun y hy => h y (List.mem_cons_of_mem c hy))
    simp [splitCharComma, hc, ih']

theorem splitCharComma_join (parts : List (List Char)) (hne : parts ≠ [])
    (h : ∀ p ∈ parts, ∀ c ∈ p, ¬ c = ',') :
    splitCharComma (joinCharComma parts) = parts := by
  induction parts with
  | nil => exact absurd rfl hne
  | cons x xs ih =>
    cases xs with
    | nil =>
      simp only [joinCharComma]
      exact splitCharComma_noComma x (h x (List.mem_cons_self x []))
    | cons y ys =>
      have hx : ∀ c ∈ x, ¬ c = ',' := h x (List.mem_cons_self x (y :: ys))
      rw [show joinCharComma (x :: y :: ys) = x ++ ',' :: joinCharComma (y :: ys) from rfl]
      rw [splitCharComma_append x _ hx]
      rw [ih (by simp) (fun p hp => h p (List.mem_cons_of_mem x hp))]

theorem map_mk_data (parts : List String) :
    (parts.map String.data).map (fun l => String.mk l) = parts := by
  induction parts with
  | nil => rfl
  | cons p ps ih =>
    simp only [List.map_cons, ih]

theorem jsSplit_jsJoin (parts : List String) (hne : parts ≠ [])
    (h : ∀ p ∈ parts, ∀ c ∈ p.data, ¬ c = ',') :
    jsSplitComma (jsJoinComma parts) = parts := by
  simp only [jsSplitComma, jsJoinComma]
  rw [splitCharComma_join (parts.map String.data) (by simpa using hne) ?_]
  · exact map_mk_data parts
  · intro p hp
    rw [List.mem_map] at hp
    obtain ⟨q, hq, rfl⟩ := hp
    exact h q hq

theorem jsJoin_ne_empty (parts : List String) (hne : parts ≠ [])
    (hall : ∀ p ∈ parts, p ≠ "") :
    jsJoinComma parts ≠ "" := by
  cases parts with
  | nil => exact absurd rfl hne
  | cons x xs =>
    cases xs with
    | nil =>
      rw [show jsJoinComma [x] = x from rfl]
      exact hall x (by simp)
    | cons y ys =>
      intro h
      have hd : (jsJoinComma (x :: y :: ys)).data =
          x.data ++ ',' :: joinCharComma ((y :: ys).map String.data) := rfl
      rw [h] at hd
      simp at hd

theorem mapM_decode_encode (ts : List String) :
    (ts.map encodeURIComponent).mapM decodeURIComponent = some ts := by
  induction ts with
  | nil => rfl
  | cons t rest ih =>
    rw [List.map_cons, List.mapM_cons, decode_encode t, ih]
    rfl

theorem filter_ne_empty (ts : List String) (h : ∀ t ∈ ts, t ≠ "") :
    ts.filter (fun t => t != "") = ts := by
  rw [List.filter_eq_self]
  intro a ha
  simpa using h a ha

theorem hexChar_ne_plus : ∀ d, d < 16 → hexDigitChar d ≠ '+' := by decide

theorem unreserved_ne_plus (c : Char) (h : isUnreservedChar c = true) : ¬ c = '+' := by
  intro hc
  subst hc
  exact absurd h (by decide)

theorem encChar_ne_plus (c : Char) : ∀ x ∈ encChar c, ¬ x = '+' := by
  intro x hx
  by_cases hu : isUnreservedChar c
  · simp only [encChar, hu, if_true, List.mem_singleton] at hx
    subst hx
    exact unreserved_ne_plus x hu
  · simp only [encChar, hu, Bool.false_eq_true, if_false] at hx
    rw [List.mem_flatMap] at hx
    obtain ⟨b, hb, hxb⟩ := hx
    have hb256 : b < 256 := utf8EncodeChar_lt256 c.toNat (char_toNat_lt c) b hb
    simp only [pctByte, List.mem_cons, List.mem_singleton, List.not_mem_nil, or_false] at hxb
    rcases hxb with rfl | rfl | rfl
    · decide
    · exact hexChar_ne_plus (b / 16) (by omega)
    · exact hexChar_ne_plus (b % 16) (by omega)

theorem mem_joinCharComma (parts : List (List Char)) (c : Char)
    (hc : c ∈ joinCharComma parts) : c = ',' ∨ ∃ p ∈ parts, c ∈ p := by
  induction parts with
  | nil => simp [joinCharComma] at hc
  | cons x xs ih =>
    cases xs with
    | nil =>
      right
      exact ⟨x, by simp, by simpa [joinCharComma] using hc⟩
    | cons y ys =>
      rw [show joinCharComma (x :: y :: ys) = x ++ ',' :: joinCharComma (y :: ys) from rfl] at hc
      rcases List.mem_append.mp hc with h | h
      · right
        exact ⟨x, by simp, h⟩
      · rcases List.mem_cons.mp h with h | h
        · left
          exact h
        · rcases ih h with h | ⟨p, hp, hcp⟩
          · left
            exact h
          · right
            exact ⟨p, List.mem_cons_of_mem x hp, hcp⟩

theorem shareParam_no_plus (ts : List String) :
    ∀ c ∈ (shareParam ts).data, ¬ c = '+' := by
  intro c hc
  rw [show (shareParam ts).data
      = joinCharComma ((ts.map encodeURIComponent).map String.data) from rfl] at hc
  rcases mem_joinCharComma _ c hc with h | ⟨p, hp, hcp⟩
  · subst h
    decide
  · rw [List.mem_map] at hp
    obtain ⟨q, hq, rfl⟩ := hp
    rw [List.mem_map] at hq
    obtain ⟨t, _, rfl⟩ := hq
    rw [show (encodeURIComponent t).data = t.data.flatMap encChar from rfl,
      List.mem_flatMap] at hcp
    obtain ⟨c0, _, hc0⟩ := hcp
    exact encChar_ne_plus c0 c hc0

theorem map_plusToSpace_id (l : List Char) (h : ∀ c ∈ l, ¬ c = '+') :
    l.map plusToSpace = l := by
  induction l with
  | nil => rfl
  | cons c cs ih =>
    have hc := h c (List.mem_cons_self c cs)
    simp [plusToSpace, hc, ih (fun x hx => h x (List.mem_cons_of_mem c hx))]

theorem urlPctAux_nil (f : Nat) : urlPctAux f [] = [] := by
  cases f <;> rfl

theorem urlPctAux_literal (c : Char) (hc : ¬ c = '%') (f : Nat) (rest : List Char) :
    urlPctAux (f + 1) (c :: rest) = Sum.inl c :: urlPctAux f rest := by
  rw [urlPctAux, if_neg hc]

theorem urlPctAux_pctByte (b : Nat) (hb : b < 256) (f : Nat) (rest : List Char) :
    urlPctAux (f + 1) (pctByte b ++ rest) = Sum.inr b :: urlPctAux f rest := by
  have h1 := hexVal_hexChar (b / 16) (by omega)
  have h2 := hexVal_hexChar (b % 16) (by omega)
  have hb' : 16 * (b / 16) + b % 16 = b := by omega
  simp only [pctByte, List.cons_append, List.nil_append]
  rw [urlPctAux, if_pos rfl]
  simp [urlEscVal, h1, h2, hb']

theorem urlPctAux_bytes (bs : List Nat) (hbs : ∀ b ∈ bs, b < 256) (f : Nat)
    (rest : List Char) :
    urlPctAux (bs.length + f) (bs.flatMap pctByte ++ rest) =
      bs.map Sum.inr ++ urlPctAux f rest := by
  induction bs with
  | nil => simp [urlPctAux]
  | cons b bs ih =>
    have hb : b < 256 := hbs b (List.mem_cons_self b bs)
    have hbs' : ∀ x ∈ bs, x < 256 := fun x hx => hbs x (List.mem_cons_of_mem b hx)
    rw [List.flatMap_cons, List.append_assoc]
    rw [show (b :: bs).length + f = (bs.length + f) + 1 from by simp [List.length_cons]; omega]
    rw [urlPctAux_pctByte b hb, ih hbs']
    rfl

theorem urlPctAux_encChar (c : Char) (f : Nat) (rest : List Char) :
    urlPctAux ((tokChar c).length + f) (encChar c ++ rest) =
      tokChar c ++ urlPctAux f rest := by
  by_cases hu : isUnreservedChar c
  · simp only [encChar, tokChar, hu, if_true, List.length_singleton, List.cons_append,
      List.nil_append]
    rw [Nat.add_comm 1 f, urlPctAux_literal c (unreserved_ne_pct c hu) f rest]
  · simp only [encChar, tokChar, hu, Bool.false_eq_true, if_false, List.length_map]
    exact urlPctAux_bytes (utf8EncodeChar c.toNat)
      (utf8EncodeChar_lt256 c.toNat (char_toNat_lt c)) f rest

theorem urlPctAux_encList (l : List Char) (f : Nat) (rest : List Char) :
    urlPctAux ((l.flatMap tokChar).length + f) (l.flatMap encChar ++ rest) =
      l.flatMap tokChar ++ urlPctAux f rest := by
  induction l with
  | nil => simp [urlPctAux]
  | cons c cs ih =>
    rw [List.flatMap_cons, List.flatMap_cons, List.append_assoc]
    rw [show (tokChar c ++ cs.flatMap tokChar).length + f
        = (tokChar c).length + ((cs.flatMap tokChar).length + f) from by
      simp [List.length_append]; omega]
    rw [urlPctAux_encChar c ((cs.flatMap tokChar).length + f)]
    rw [ih]
    rw [List.append_assoc]

theorem urlPctAux_join (ts : List String) (f : Nat) (rest : List Char) :
    urlPctAux ((journeyTokens ts).length + f)
      (joinCharComma ((ts.map encodeURIComponent).map String.data) ++ rest) =
      journeyTokens ts ++ urlPctAux f rest := by
  induction ts with
  | nil => simp [journeyTokens, joinCharComma]
  | cons t xs ih =>
    cases xs with
    | nil =>
      rw [show journeyTokens [t] = t.data.flatMap tokChar from rfl]
      rw [show joinCharComma (([t].map encodeURIComponent).map String.data)
          = t.data.flatMap encChar from rfl]
      exact urlPctAux_encList t.data f rest
    | cons t2 more =>
      rw [show journeyTokens (t :: t2 :: more)
          = t.data.flatMap tokChar ++ Sum.inl ',' :: journeyTokens (t2 :: more) from rfl]
      rw [show joinCharComma (((t :: t2 :: more).map encodeURIComponent).map String.data)
          = t.data.flatMap encChar ++
            ',' :: joinCharComma (((t2 :: more).map encodeURIComponent).map String.data)
          from rfl]
      rw [List.append_assoc, List.cons_append]
      rw [show (t.data.flatMap tokChar ++ Sum.inl ',' :: journeyTokens (t2 :: more)).length + f
          = (t.data.flatMap tokChar).length +
            (((journeyTokens (t2 :: more)).length + f) + 1) from by
        simp [List.length_append, List.length_cons]; omega]
      rw [urlPctAux_encList t.data (((journeyTokens (t2 :: more)).length + f) + 1)]
      rw [urlPctAux_literal ',' (by decide) ((journeyTokens (t2 :: more)).length + f)]
      rw [ih]
      simp [List.append_assoc]

theorem journeyTokens_le (ts : List String) :
    (journeyTokens ts).length ≤
      (joinCharComma ((ts.map encodeURIComponent).map String.data)).length := by
  have hchar : ∀ l : List Char, (l.flatMap tokChar).length ≤ (l.flatMap encChar).length := by
    intro l
    induction l with
    | nil => simp
    | cons c cs ih =>
      simp only [List.flatMap_cons, List.length_append]
      have hc : (tokChar c).length ≤ (encChar c).length := by
        by_cases hu : isUnreservedChar c
        · simp [tokChar, encChar, hu]
        · simp only [tokChar, encChar, hu, Bool.false_eq_true, if_false, List.length_map]
          induction utf8EncodeChar c.toNat with
          | nil => simp
          | cons b bs ihb =>
            simp only [List.flatMap_cons, List.length_append, List.length_cons, pctByte]
            simp at ihb ⊢
            omega
      omega
  induction ts with
  | nil => simp [journeyTokens, joinCharComma]
  | cons t xs ih =>
    cases xs with
    | nil =>
      rw [show journeyTokens [t] = t.data.flatMap tokChar from rfl]
      rw [show joinCharComma (([t].map encodeURIComponent).map String.data)
          = t.data.flatMap encChar from rfl]
      exact hchar t.data
    | cons t2 more =>
      rw [show journeyTokens (t :: t2 :: more)
          = t.data.flatMap tokChar ++ Sum.inl ',' :: journeyTokens (t2 :: more) from rfl]
      rw [show joinCharComma (((t :: t2 :: more).map encodeURIComponent).map String.data)
          = t.data.flatMap encChar ++
            ',' :: joinCharComma (((t2 :: more).map encodeURIComponent).map String.data)
          from rfl]
      simp only [List.length_append, List.length_cons]
      have h1 := hchar t.data
      omega

theorem urlPctTokens_join (ts : List String) :
    urlPctTokens (joinCharComma ((ts.map encodeURIComponent).map String.data)) =
      journeyTokens ts := by
  have hle := journeyTokens_le ts
  simp only [urlPctTokens]
  rw [show (joinCharComma ((ts.map encodeURIComponent).map String.data)).length
      = (journeyTokens ts).length +
        ((joinCharComma ((ts.map encodeURIComponent).map String.data)).length -
          (journeyTokens ts).length) from by omega]
  have happ := urlPctAux_join ts
    ((joinCharComma ((ts.map encodeURIComponent).map String.data)).length -
      (journeyTokens ts).length) []
  rw [List.append_nil] at happ
  rw [happ, urlPctAux_nil, List.append_nil]

theorem utf8ReplaceAux_nil (f : Nat) : utf8ReplaceAux f [] = [] := by
  cases f <;> rfl

theorem utf8ReplaceAux_inl (c : Char) (f : Nat) (ts : List (Char ⊕ Nat)) :
    utf8ReplaceAux (f + 1) (Sum.inl c :: ts) = c :: utf8ReplaceAux f ts := by
  rw [utf8ReplaceAux]

theorem utf8ReplaceAux_encodeChar (n : Nat) (f : Nat)
    (hv : n < 55296 ∨ 57343 < n ∧ n < 1114112) (ts : List (Char ⊕ Nat)) :
    utf8ReplaceAux (f + 1) ((utf8EncodeChar n).map Sum.inr ++ ts) =
      Char.ofNat n :: utf8ReplaceAux f ts := by
  by_cases h1 : n < 128
  · simp only [utf8EncodeChar, h1, if_true, List.map_cons, List.map_nil, List.cons_append,
      List.nil_append]
    rw [utf8ReplaceAux, utf8First_one n ts h1]
    rfl
  · by_cases h2 : n < 2048
    · simp only [utf8EncodeChar, h1, h2, if_true, Bool.false_eq_true, if_false, List.map_cons,
        List.map_nil, List.cons_append, List.nil_append]
      rw [utf8ReplaceAux, utf8First_two (192 + n / 64) (128 + n % 64) ts
        (by omega) (by omega) (by omega) (by omega)]
      rw [show (192 + n / 64 - 192) * 64 + (128 + n % 64 - 128) = n by omega]
      rfl
    · by_cases h3 : n < 65536
      · simp only [utf8EncodeChar, h1, h2, h3, if_true, Bool.false_eq_true, if_false,
          List.map_cons, List.map_nil, List.cons_append, List.nil_append]
        rw [utf8ReplaceAux, utf8First_three (224 + n / 4096) (128 + n / 64 % 64) (128 + n % 64)
          ts (by omega) (by omega) (by omega) (by omega) (by omega)]
        rw [show (224 + n / 4096 - 224) * 4096 + (128 + n / 64 % 64 - 128) * 64 +
          (128 + n % 64 - 128) = n by omega]
        rfl
      · simp only [utf8EncodeChar, h1, h2, h3, if_true, Bool.false_eq_true, if_false,
          List.map_cons, List.map_nil, List.cons_append, List.nil_append]
        rw [utf8ReplaceAux, utf8First_four (240 + n / 262144) (128 + n / 4096 % 64)
          (128 + n / 64 % 64) (128 + n % 64) ts
          (by omega) (by omega) (by omega) (by omega) (by omega) (by omega)]
        rw [show (240 + n / 262144 - 240) * 262144 + (128 + n / 4096 % 64 - 128) * 4096 +
          (128 + n / 64 % 64 - 128) * 64 + (128 + n % 64 - 128) = n by omega]
        rfl

theorem utf8ReplaceAux_tokChar (c : Char) (f : Nat) (ts : List (Char ⊕ Nat)) :
    utf8ReplaceAux (f + 1) (tokChar c ++ ts) = c :: utf8ReplaceAux f ts := by
  by_cases hu : isUnreservedChar c
  · simp only [tokChar, hu, if_true, List.cons_append, List.nil_append]
    rw [utf8ReplaceAux_inl]
  · simp only [tokChar, hu, Bool.false_eq_true, if_false]
    rw [utf8ReplaceAux_encodeChar c.toNat f c.valid ts, Char.ofNat_toNat]

theorem utf8Replace_chars (l : List Char) (f : Nat) (ts : List (Char ⊕ Nat)) :
    utf8ReplaceAux (l.length + f) (l.flatMap tokChar ++ ts) = l ++ utf8ReplaceAux f ts := by
  induction l with
  | nil => simp [utf8ReplaceAux_nil]
  | cons c cs ih =>
    rw [List.flatMap_cons, List.append_assoc]
    rw [show (c :: cs).length + f = (cs.length + f) + 1 from by simp [List.length_cons]; omega]
    rw [utf8ReplaceAux_tokChar c (cs.length + f)]
    rw [ih]
    rfl

theorem join_le_journeyTokens (ts : List String) :
    (joinCharComma (ts.map String.data)).length ≤ (journeyTokens ts).length := by
  have hchar : ∀ l : List Char, l.length ≤ (l.flatMap tokChar).length := by
    intro l
    induction l with
    | nil => simp
    | cons c cs ih =>
      simp only [List.flatMap_cons, List.length_append, List.length_cons]
      have hc : 1 ≤ (tokChar c).length := by
        by_cases hu : isUnreservedChar c
        · simp [tokChar, hu]
        · simp only [tokChar, hu, Bool.false_eq_true, if_false, List.length_map]
          rcases hne : utf8EncodeChar c.toNat with _ | ⟨b, bs⟩
          · exact absurd hne (utf8EncodeChar_ne_nil c.toNat)
          · simp
      omega
  induction ts with
  | nil => simp [journeyTokens, joinCharComma]
  | cons t xs ih =>
    cases xs with
    | nil =>
      rw [show journeyTokens [t] = t.data.flatMap tokChar from rfl,
        show joinCharComma ([t].map String.data) = t.data from rfl]
      exact hchar t.data
    | cons t2 more =>
      rw [show journeyTokens (t :: t2 :: more)
          = t.data.flatMap tokChar ++ Sum.inl ',' :: journeyTokens (t2 :: more) from rfl,
        show joinCharComma ((t :: t2 :: more).map String.data)
          = t.data ++ ',' :: joinCharComma ((t2 :: more).map String.data) from rfl]
      simp only [List.length_append, List.length_cons]
      have h1 := hchar t.data
      omega

theorem utf8Replace_join (ts : List String) (f : Nat) (rest : List (Char ⊕ Nat)) :
    utf8ReplaceAux ((joinCharComma (ts.map String.data)).length + f)
      (journeyTokens ts ++ rest) =
      joinCharComma (ts.map String.data) ++ utf8ReplaceAux f rest := by
  induction ts with
  | nil => simp [journeyTokens, joinCharComma]
  | cons t xs ih =>
    cases xs with
    | nil =>
      rw [show journeyTokens [t] = t.data.flatMap tokChar from rfl,
        show joinCharComma ([t].map String.data) = t.data from rfl]
      exact utf8Replace_chars t.data f rest
    | cons t2 more =>
      rw [show journeyTokens (t :: t2 :: more)
          = t.data.flatMap tokChar ++ Sum.inl ',' :: journeyTokens (t2 :: more) from rfl,
        show joinCharComma ((t :: t2 :: more).map String.data)
          = t.data ++ ',' :: joinCharComma ((t2 :: more).map String.data) from rfl]
      rw [List.append_assoc, List.cons_append]
      rw [show (t.data ++ ',' :: joinCharComma ((t2 :: more).map String.data)).length + f
          = t.data.length +
            (((joinCharComma ((t2 :: more).map String.data)).length + f) + 1) from by
        simp [List.length_append, List.length_cons]; omega]
      rw [utf8Replace_chars t.data
        (((joinCharComma ((t2 :: more).map String.data)).length + f) + 1)]
      rw [utf8ReplaceAux_inl ',' ((joinCharComma ((t2 :: more).map String.data)).length + f)]
      rw [ih]
      simp [List.append_assoc]

theorem urlFormDecode_shareParam (ts : List String) :
    urlFormDecode (shareParam ts) = jsJoinComma ts := by
  simp only [urlFormDecode]
  rw [map_plusToSpace_id _ (shareParam_no_plus ts)]
  rw [show (shareParam ts).data
      = joinCharComma ((ts.map encodeURIComponent).map String.data) from rfl]
  rw [urlPctTokens_join ts]
  have hle := join_le_journeyTokens ts
  rw [show (journeyTokens ts).length
      = (joinCharComma (ts.map String.data)).length +
        ((journeyTokens ts).length - (joinCharComma (ts.map String.data)).length)
      from by omega]
  have happ := utf8Replace_join ts
    ((journeyTokens ts).length - (joinCharComma (ts.map String.data)).length) []
  rw [List.append_nil] at happ
  rw [happ, utf8ReplaceAux_nil, List.append_nil]
  rfl

theorem pctTokens_noPct (l : List Char) (h : '%' ∉ l) :
    pctTokens l = some (l.map Sum.inl) := by
  induction l with
  | nil => rfl
  | cons c rest ih =>
    simp only [List.mem_cons, not_or] at h
    obtain ⟨hc, hrest⟩ := h
    rw [pctTokens_literal c (fun he => hc he.symm) rest, ih hrest]
    rfl

theorem utf8DecodeAux_inl (l : List Char) (f : Nat) (h : l.length ≤ f) :
    utf8DecodeAux f (l.map Sum.inl) = some l := by
  induction l generalizing f with
  | nil => cases f <;> rfl
  | cons c rest ih =>
    cases f with
    | zero => simp at h
    | succ f =>
      rw [List.map_cons, utf8DecodeAux,
        ih f (by simp only [List.length_cons] at h; omega)]
      rfl

theorem decodeURIComponent_noPct (s : String) (h : '%' ∉ s.data) :
    decodeURIComponent s = some s := by
  simp only [decodeURIComponent]
  rw [pctTokens_noPct s.data h]
  dsimp only
  rw [show utf8DecodeTokens (s.data.map Sum.inl) = some s.data from by
    simp only [utf8DecodeTokens, List.length_map]
    exact utf8DecodeAux_inl s.data s.data.length le_rfl]

theorem mapM_decode_noPct (ts : List String) (h : ∀ t ∈ ts, '%' ∉ t.data) :
    ts.mapM decodeURIComponent = some ts := by
  induction ts with
  | nil => rfl
  | cons t rest ih =>
    rw [List.mapM_cons, decodeURIComponent_noPct t (h t (List.mem_cons_self t rest)),
      ih (fun x hx => h x (List.mem_cons_of_mem t hx))]
    rfl

/-- Claim C7 counterexample: the serialization round-trip fails on
journeys the claim quantifies over. A topic containing a comma is split
apart on load: sharing `["A,B"]` yields `journey=A%2CB`, `URLSearchParams`
form-urldecodes the value back to `A,B`, and the comma split rebuilds the
journey as `["A", "B"]`. A topic containing a percent sign aborts the
load: sharing `["100%"]` yields `100%25`, the form-urldecode restores
`100%`, and the second `decodeURIComponent` throws on the now-dangling
escape, so the default seed `["Metacognition"]` replaces the journey. -/
theorem journey_roundtrip_cex :
    getInitialHistory (some (urlFormDecode (shareParam ["A,B"]))) = ["A", "B"] ∧
    getInitialHistory (some (urlFormDecode (shareParam ["100%"]))) = ["Metacognition"] := by
  constructor <;> rfl

/-- Claim C7 (amended): the round-trip passes through the navigation
context, which form-urldecodes the `journey` value once
(`URLSearchParams.get`) before `getInitialHistory` splits it on commas
and percent-decodes each entry a second time. For a non-empty journey
whose topics are non-empty and contain neither a comma nor a percent
sign, serializing with `handleShare` and reconstructing through this
pipeline restores the same topics in the same order with the index at
the last position. (Without those restrictions the round-trip fails: a
comma inside a topic splits it apart and a percent sign sends the load
to the default seed.) -/
theorem journey_roundtrip_spec (ts : List String)
    (h1 : ts ≠ [])
    (h2 : ∀ t ∈ ts, t ≠ "")
    (h3 : ∀ t ∈ ts, ∀ c ∈ t.data, ¬ c = ',')
    (h4 : ∀ t ∈ ts, '%' ∉ t.data) :
    appInit (some (urlFormDecode (shareParam ts))) = (ts, (ts.length : Int) - 1) := by
  have hgi : getInitialHistory (some (urlFormDecode (shareParam ts))) = ts := by
    rw [urlFormDecode_shareParam]
    simp only [getInitialHistory]
    rw [if_neg (jsJoin_ne_empty ts h1 h2)]
    rw [jsSplit_jsJoin ts h1 h3, mapM_decode_noPct ts h4]
    exact filter_ne_empty ts h2
  simp only [appInit, hgi]

theorem journey_roundtrip_spec_witness :
    appInit (some (urlFormDecode (shareParam ["A", "B"]))) =
      (["A", "B"], ((["A", "B"] : List String).length : Int) - 1) :=
  journey_roundtrip_spec ["A", "B"] (by decide) (by decide) (by decide) (by decide)
